import Mathlib

/-!
Verification of the cascading user-purge engine of this repository.

The program under study is `v1/purge-user.py` together with the CRUD helpers
in `lib/purge.py`.  The shallow embedding below mirrors that code:

* Python dicts for entities become structures whose reference-set fields are
  `Option (List String)` — `pydash.get(d, k)` / `d.get(k)` with no default
  yields `none` when the field is absent, exactly as Python yields `None`.
* `purgeResource` / `updateResource` (lib/purge.py) log and return *before*
  building any HTTP request when `dryrun` is true; this is modelled by
  `mutate`, which records the action in the plan always and changes the
  remote state only when `dryrun` is false.
* A Python `TypeError` / raised `Exception` (e.g. `set(None)`, or
  `getResource` raising on a missing entity) aborts the run; the embedding
  returns the actions already issued, the state already reached, and
  `ok = false`.
* The remote store is the external collaborator of spec §6
  (`deleteEntity/updateEntity -> status | ApplyError`); `RemoteState.failing`
  lists the resource ids for which the store reports a mutating call as
  failed (the call then has no effect and returns an error status, which
  `purge-user.py` receives as `resp.status_code` and discards).
* Python `set` subset / difference tests on lists translate to `List.all`
  membership tests, and `list(set(a) - set(b))` to `(a.filter (· ∉ b)).eraseDups`.
-/

/-- A policy rule; in the source a dict with key `accessRoleIds`
(`rule.get('accessRoleIds')` is `None` when absent). -/
structure Rule where
  accessRoleIds : Option (List String)
deriving DecidableEq

/-- A policy: id plus `rules` (absent field modelled as `none`). -/
structure Policy where
  id : String
  rules : Option (List Rule)
deriving DecidableEq

/-- An application: id plus optional `policyId` (absent/null becomes `none`;
the source additionally treats the empty string as falsy). -/
structure App where
  id : String
  policyId : Option String
deriving DecidableEq

/-- A team: id, member emails and linked role ids. -/
structure Team where
  id : String
  emails : Option (List String)
  accessRoleIds : Option (List String)
deriving DecidableEq

/-- An access role: id, member emails and linked team ids. -/
structure Role where
  id : String
  emails : Option (List String)
  teamIds : Option (List String)
deriving DecidableEq

/-- A user: id (email) plus team and role references. -/
structure User where
  id : String
  teamIds : Option (List String)
  accessRoleIds : Option (List String)
deriving DecidableEq

/-- The remote store reachable through the Resource Client (spec §6).
`failing` models the collaborator's failure reports: a mutating call whose
target id is listed is reported failed (error status) and has no effect. -/
structure RemoteState where
  users : List User
  teams : List Team
  roles : List Role
  policies : List Policy
  apps : List App
  failing : List String
deriving DecidableEq

/-- One mutating call of the run, identified by HTTP method and URL shape in
`purge-user.py` (`purgeResource` on a collection URL deletes the entity, on a
`/users/` or `/teams/` sub-URL it unlinks the listed members;
`updateResource` PUTs the policy with its id popped). -/
inductive Act where
  | deleteApp (id : String)
  | deletePolicy (id : String)
  | unlinkTeamUsers (teamId : String) (userIds : List String)
  | unlinkRoleUsers (roleId : String) (userIds : List String)
  | unlinkRoleTeams (roleId : String) (teamIds : List String)
  | deleteTeam (id : String)
  | deleteRole (id : String)
  | updatePolicy (id : String) (rules : List Rule)
  | deleteUser (id : String)
deriving DecidableEq

/-- Result of a run: ordered list of mutating calls attempted (the dry-run
log, equivalently), the final remote state, and whether the script ran to
completion (`ok = false` means an uncaught Python exception). -/
structure RunResult where
  plan : List Act
  state : RemoteState
  ok : Bool
deriving DecidableEq

/-- Ordered-dict lookup (Python `dict`/`pydash.get` on a plain key). -/
def alGet {α : Type} : List (String × α) → String → Option α
  | [], _ => none
  | kv :: m, k => if kv.1 = k then some kv.2 else alGet m k

/-- Ordered-dict write: overwrite in place, else append (Python dict
assignment keeps insertion order). -/
def alSet {α : Type} : List (String × α) → String → α → List (String × α)
  | [], k, v => [(k, v)]
  | kv :: m, k, v => if kv.1 = k then (k, v) :: m else kv :: alSet m k v

/-- `getResource` on the users collection: find by id, `none` = HTTP 404
(which `lib/purge.py` turns into a raised exception). -/
def getUser (s : RemoteState) (i : String) : Option User :=
  s.users.find? (fun u => u.id = i)

/-- `getResource` on the teams collection. -/
def getTeam (s : RemoteState) (i : String) : Option Team :=
  s.teams.find? (fun t => t.id = i)

/-- `getResource` on the roles collection. -/
def getRole (s : RemoteState) (i : String) : Option Role :=
  s.roles.find? (fun r => r.id = i)

/-- `getResource` on the policies collection. -/
def getPolicy (s : RemoteState) (i : String) : Option Policy :=
  s.policies.find? (fun p => p.id = i)

/-- Effect of a successful mutating call on the remote store, following the
CRUD contract of spec §6 and the data model of spec §3: DELETE removes the
entity with the given id, the relationship DELETEs remove the listed members
from the reference sets, PUT replaces the policy body (its `rules`). -/
def applyAction (s : RemoteState) : Act → RemoteState
  | .deleteApp i => { s with apps := s.apps.filter (fun a => a.id ≠ i) }
  | .deletePolicy i => { s with policies := s.policies.filter (fun p => p.id ≠ i) }
  | .unlinkTeamUsers t us =>
      { s with teams := s.teams.map (fun tm =>
          if tm.id = t then
            { tm with emails := tm.emails.map (fun es => es.filter (fun e => e ∉ us)) }
          else tm) }
  | .unlinkRoleUsers r us =>
      { s with roles := s.roles.map (fun ro =>
          if ro.id = r then
            { ro with emails := ro.emails.map (fun es => es.filter (fun e => e ∉ us)) }
          else ro) }
  | .unlinkRoleTeams r ts =>
      { s with roles := s.roles.map (fun ro =>
          if ro.id = r then
            { ro with teamIds := ro.teamIds.map (fun l => l.filter (fun t => t ∉ ts)) }
          else ro) }
  | .deleteTeam i => { s with teams := s.teams.filter (fun t => t.id ≠ i) }
  | .deleteRole i => { s with roles := s.roles.filter (fun r => r.id ≠ i) }
  | .updatePolicy i rs =>
      { s with policies := s.policies.map (fun p =>
          if p.id = i then { p with rules := some rs } else p) }
  | .deleteUser i => { s with users := s.users.filter (fun u => u.id ≠ i) }

/-- The resource id appearing in the call's URL (the store's failure reports
are keyed on it). -/
def actionTarget : Act → String
  | .deleteApp i => i
  | .deletePolicy i => i
  | .unlinkTeamUsers t _ => t
  | .unlinkRoleUsers r _ => r
  | .unlinkRoleTeams r _ => r
  | .deleteTeam i => i
  | .deleteRole i => i
  | .updatePolicy i _ => i
  | .deleteUser i => i

/-- One `purgeResource`/`updateResource` call (lib/purge.py): in dry-run mode
the function returns before constructing the HTTP request, so the state is
untouched; otherwise the store applies the call unless it reports failure
(`purge-user.py` ignores the returned status either way). -/
def mutate (dryrun : Bool) (s : RemoteState) (a : Act) : RemoteState :=
  if dryrun then s
  else if actionTarget a ∈ s.failing then s
  else applyAction s a

/-- Issue a block of calls in order, appending each to the plan. -/
def emitAll (dryrun : Bool) (acc : List Act) (s : RemoteState) :
    List Act → List Act × RemoteState
  | [] => (acc, s)
  | a :: as => emitAll dryrun (acc ++ [a]) (mutate dryrun s a) as

/-- Phase-1 grouping of applications by policy (purge-user.py lines 42-51):
every app whose `policyId` is truthy (present and nonempty) is appended to
the mapper entry of that policy; keys appear in first-insertion order. -/
def buildPolicyAppMapper (apps : List App) : List (String × List String) :=
  apps.foldl (fun m a =>
    match a.policyId with
    | some pid =>
        if pid = "" then m
        else alSet m pid ((alGet m pid).getD [] ++ [a.id])
    | none => m) []

/-- `pydash.flatten_deep` of the per-rule `accessRoleIds` values
(purge-user.py lines 56-62): a rule whose field is absent contributes the
bare `None` element, a present field contributes its ids. -/
def flattenRuleRoleIds (rules : List Rule) : List (Option String) :=
  rules.foldr (fun r acc =>
    (match r.accessRoleIds with
     | none => [none]
     | some l => l.map some) ++ acc) []

/-- Phase-1 policy deletability (purge-user.py lines 55-67): iterate the
policy's rules (raises when `rules` is absent), flatten the role ids, and
test `set(policyRoleIds) <= set(accessRoleIds)` (raises when the user record
has no `accessRoleIds`).  `none` models the raised `TypeError`. -/
def policyDeletable (uRoles : Option (List String)) (p : Policy) : Option Bool :=
  p.rules.bind (fun rules =>
    uRoles.map (fun ur =>
      (flattenRuleRoleIds rules).all (fun x =>
        match x with
        | some r => r ∈ ur
        | none => false)))

/-- The phase-1 loop over the mapper's keys: fetch each policy (abort on a
missing one) and keep, in mapper order, the ids judged deletable. -/
def phase1Deletables (uRoles : Option (List String)) (s0 : RemoteState) :
    List (String × List String) → Option (List String)
  | [] => some []
  | kv :: rest =>
    (getPolicy s0 kv.1).bind (fun p =>
      (policyDeletable uRoles p).bind (fun b =>
        (phase1Deletables uRoles s0 rest).map (fun ds =>
          if b then kv.1 :: ds else ds)))

/-- Output of everything `main` computes before the first re-read of mutated
state (purge-user.py lines 34-86): the calls issued so far, whether the
script survived to line 88, and the user's team/role id lists. -/
structure PrePlan where
  acts : List Act
  ok : Bool
  teamIds : List String
  uRoles : List String
deriving DecidableEq

/-- Lines 34-86 of purge-user.py: fetch the user (abort when missing), build
the app/policy mapper, evaluate phase-1 deletability (abort on a missing
policy, missing `rules`, or — once a policy is checked — a user record with
no `accessRoleIds`), then issue the app deletions, the policy deletions and
the team unlinks; iterating `accessRoleIds` for the role unlinks raises when
the field is absent, after the team unlinks were already issued. -/
def prePlan (userId : String) (s0 : RemoteState) : PrePlan :=
  match getUser s0 userId with
  | none => ⟨[], false, [], []⟩
  | some user =>
    let teamIds := user.teamIds.getD []
    let uRolesOpt := user.accessRoleIds
    let mapper := buildPolicyAppMapper s0.apps
    match phase1Deletables uRolesOpt s0 mapper with
    | none => ⟨[], false, [], []⟩
    | some dpids =>
      let dAppIds := (dpids.map (fun pid => (alGet mapper pid).getD [])).flatten
      let appDels := dAppIds.map Act.deleteApp
      let polDels := dpids.map Act.deletePolicy
      let teamUnlinks := teamIds.map (fun t => Act.unlinkTeamUsers t [userId])
      match uRolesOpt with
      | none => ⟨appDels ++ polDels ++ teamUnlinks, false, teamIds, []⟩
      | some uRoles =>
        let roleUnlinks := uRoles.flatMap (fun r =>
          [Act.unlinkRoleUsers r [userId], Act.unlinkRoleTeams r teamIds])
        ⟨appDels ++ polDels ++ teamUnlinks ++ roleUnlinks, true, teamIds, uRoles⟩

/-- Team deletability (purge-user.py lines 90-96):
`len(set(teamEmails) - set([userId])) == 0 and len(set(teamRoleIds) - set(accessRoleIds)) == 0`.
`set(teamEmails)` raises when `emails` is absent; the `and` short-circuits,
so an absent `accessRoleIds` only raises when the first test passed. -/
def teamDeletable (userId : String) (uRoles : List String) (t : Team) : Option Bool :=
  t.emails.bind (fun es =>
    if es.all (fun e => e = userId) then
      t.accessRoleIds.map (fun rs => rs.all (fun r => r ∈ uRoles))
    else some false)

/-- Role deletability (purge-user.py lines 99-106), same shape with the
user's team ids in place of the role ids. -/
def roleDeletable (userId : String) (uTeamIds : List String) (r : Role) : Option Bool :=
  r.emails.bind (fun es =>
    if es.all (fun e => e = userId) then
      r.teamIds.map (fun ts => ts.all (fun t => t ∈ uTeamIds))
    else some false)

/-- Fetch each of the user's teams from the current store and keep the
deletable ids, in order (abort on a missing team or a raising predicate). -/
def teamsDeletable (userId : String) (uRoles : List String) (s : RemoteState) :
    List String → Option (List String)
  | [] => some []
  | t :: ts =>
    (getTeam s t).bind (fun tm =>
      (teamDeletable userId uRoles tm).bind (fun b =>
        (teamsDeletable userId uRoles s ts).map (fun ds =>
          if b then t :: ds else ds)))

/-- Fetch each of the user's roles and keep the deletable ids, in order. -/
def rolesDeletable (userId : String) (uTeamIds : List String) (s : RemoteState) :
    List String → Option (List String)
  | [] => some []
  | r :: rs =>
    (getRole s r).bind (fun ro =>
      (roleDeletable userId uTeamIds ro).bind (fun b =>
        (rolesDeletable userId uTeamIds s rs).map (fun ds =>
          if b then r :: ds else ds)))

/-- Collect every rule's `accessRoleIds` (purge-user.py line 122); the sweep
calls `set(ruleRoleIds)` on each, so an absent field raises. -/
def scanRuleFields : List Rule → Option (List (List String))
  | [] => some []
  | r :: rs =>
    r.accessRoleIds.bind (fun l =>
      (scanRuleFields rs).map (fun ls => l :: ls))

/-- Phase-4 policy deletability (purge-user.py lines 137-143): flatten the
rule role ids and delete when they are a subset of the user's role ids, or
when there are none left at all. -/
def policyDeletable4 (uRoles : List String) (p : Policy) : Option Bool :=
  p.rules.bind (fun rules =>
    (scanRuleFields rules).map (fun ls =>
      if ls.flatten.all (fun x => x ∈ uRoles) then true
      else if ls.flatten.length = 0 then true
      else false))

/-- `pydash.set_(newPolicy, f'rules.{ruleIdx}.accessRoleIds', v)` applied to
the accumulated updatable entry for `pid` (or a fresh clone of `orig`),
purge-user.py lines 129-135. -/
def setRuleUpd (pid : String) (orig : Policy) (upds : List (String × Policy))
    (idx : Nat) (v : List String) : List (String × Policy) :=
  let np := (alGet upds pid).getD orig
  let np2 := { np with rules := np.rules.map (fun rs => rs.set idx ⟨some v⟩) }
  alSet upds pid np2

/-- The per-rule shrink of the phase-4 sweep (purge-user.py lines 121-135):
`remaining = list(set(ruleRoleIds) - set(accessRoleIds))`; a rule is rewritten
when it shrank to a nonempty proper subset, or emptied when nothing of it
remains. -/
def shrinkRules (uRoles : List String) (pid : String) (orig : Policy) :
    List Rule → Nat → List (String × Policy) → List (String × Policy)
  | [], _, upds => upds
  | r :: rs, idx, upds =>
    let rids := r.accessRoleIds.getD []
    let remaining := (rids.filter (fun x => x ∉ uRoles)).eraseDups
    let upds2 :=
      if 0 < remaining.length ∧ rids.length ≠ remaining.length then
        setRuleUpd pid orig upds idx remaining
      else if remaining.length = 0 then
        setRuleUpd pid orig upds idx []
      else upds
    shrinkRules uRoles pid orig rs (idx + 1) upds2

/-- The phase-4 scan over all fetched policies (purge-user.py lines 114-143):
accumulate the updatable data set and the deletable policy ids (dict key
semantics: first insertion fixes the position).  `none` models the raised
`TypeError` on a rule with no `accessRoleIds` or a policy with no `rules`. -/
def scan4 (uRoles : List String) :
    List Policy → List (String × Policy) → List String →
    Option (List (String × Policy) × List String)
  | [], upds, dels => some (upds, dels)
  | p :: ps, upds, dels =>
    (policyDeletable4 uRoles p).bind (fun b =>
      scan4 uRoles ps (shrinkRules uRoles p.id p (p.rules.getD []) 0 upds)
        (if b then (if p.id ∈ dels then dels else dels ++ [p.id]) else dels))

/-- The update loop (purge-user.py lines 146-153): skip policies queued for
deletion, drop rules whose role set emptied, and PUT the result. -/
def updateActions (upds : List (String × Policy)) (dels : List String) : List Act :=
  upds.filterMap (fun kv =>
    if kv.1 ∈ dels then none
    else
      some (Act.updatePolicy kv.1
        ((kv.2.rules.getD []).filter (fun r => 0 < (r.accessRoleIds.getD []).length))))

/-- The orphan-role test (purge-user.py lines 173-178):
`roleEmails == [userId] and len(set(roleTeamIds) - set(teamIds)) == 0`; the
equality is Python list equality (never raises), the second conjunct raises
on an absent `teamIds` but is only reached when the first holds. -/
def orphanRoleCheck (userId : String) (uTeamIds : List String) (r : Role) : Option Bool :=
  if r.emails = some [userId] then
    r.teamIds.map (fun ts => ts.all (fun t => t ∈ uTeamIds))
  else some false

/-- Collect the orphan role ids over the fetched role list, in order. -/
def orphanRoles (userId : String) (uTeamIds : List String) : List Role → Option (List String)
  | [] => some []
  | r :: rs =>
    (orphanRoleCheck userId uTeamIds r).bind (fun b =>
      (orphanRoles userId uTeamIds rs).map (fun os =>
        if b then r.id :: os else os))

/-- Lines 170-186 of purge-user.py: the orphan-role deletion sweep over the
re-fetched role collection, then — always last — the deletion of the user
entity itself.  `pr` carries the calls issued so far and the current store. -/
def rest4 (userId : String) (d : Bool) (teamIds : List String)
    (pr : List Act × RemoteState) : RunResult :=
  match orphanRoles userId teamIds pr.2.roles with
  | none => ⟨pr.1, pr.2, false⟩
  | some ors =>
    let p4 := emitAll d pr.1 pr.2 (ors.map Act.deleteRole ++ [Act.deleteUser userId])
    ⟨p4.1, p4.2, true⟩

/-- Lines 158-168 of purge-user.py: the orphan-team sweep over the re-fetched
team collection — teams whose `emails` equals exactly `[userId]` are
unlinked (not deleted; "Other case will be hanlded by user deleting"). -/
def rest3 (userId : String) (d : Bool) (teamIds : List String)
    (pr : List Act × RemoteState) : RunResult :=
  let oTs := (pr.2.teams.filter (fun t => decide (t.emails = some [userId]))).map Team.id
  rest4 userId d teamIds
    (emitAll d pr.1 pr.2 (oTs.map (fun t => Act.unlinkTeamUsers t [userId])))

/-- Lines 113-156 of purge-user.py: the phase-4 policy consistency sweep over
the re-fetched policy collection — rule shrinking, policy updates (skipping
policies queued for deletion) and then the policy deletions. -/
def rest2 (userId : String) (d : Bool) (uRoles teamIds : List String)
    (pr : List Act × RemoteState) : RunResult :=
  match scan4 uRoles pr.2.policies [] [] with
  | none => ⟨pr.1, pr.2, false⟩
  | some ud =>
    rest3 userId d teamIds
      (emitAll d pr.1 pr.2 (updateActions ud.1 ud.2 ++ ud.2.map Act.deletePolicy))

/-- Lines 88-186 of purge-user.py: the team/role deletability checks (reads
against the current store) and the resulting deletions, followed by the
sweep phases and the final user deletion. -/
def runRest (userId : String) (d : Bool) (uRoles teamIds : List String)
    (plan0 : List Act) (s : RemoteState) : RunResult :=
  match teamsDeletable userId uRoles s teamIds with
  | none => ⟨plan0, s, false⟩
  | some dts =>
    match rolesDeletable userId teamIds s uRoles with
    | none => ⟨plan0, s, false⟩
    | some drs =>
      rest2 userId d uRoles teamIds
        (emitAll d plan0 s (dts.map Act.deleteTeam ++ drs.map Act.deleteRole))

/-- The whole of `main` in purge-user.py for a given user id, dry-run flag
and remote store: the pre-plan phase followed, when it survived, by the
remaining phases. -/
def runMain (userId : String) (dryrun : Bool) (s0 : RemoteState) : RunResult :=
  let pre := prePlan userId s0
  let p0 := emitAll dryrun [] s0 pre.acts
  if pre.ok then runRest userId dryrun pre.uRoles pre.teamIds p0.1 p0.2
  else ⟨p0.1, p0.2, false⟩

/-! ### Basic lemmas about call emission -/

theorem mutate_true (s : RemoteState) (a : Act) : mutate true s a = s := rfl

theorem emitAll_fst (d : Bool) (as : List Act) :
    ∀ (acc : List Act) (s : RemoteState), (emitAll d acc s as).1 = acc ++ as := by
  induction as with
  | nil => intro acc s; simp [emitAll]
  | cons a as ih =>
      intro acc s
      simp only [emitAll]
      rw [ih]
      simp

theorem emitAll_snd_true (as : List Act) :
    ∀ (acc : List Act) (s : RemoteState), (emitAll true acc s as).2 = s := by
  induction as with
  | nil => intro acc s; rfl
  | cons a as ih => intro acc s; simp only [emitAll, mutate_true]; exact ih _ _

theorem rest4_true_state (uid : String) (tI : List String) (pr : List Act × RemoteState) :
    (rest4 uid true tI pr).state = pr.2 := by
  unfold rest4
  cases orphanRoles uid tI pr.2.roles with
  | none => rfl
  | some ors => simp [emitAll_snd_true]

theorem rest3_true_state (uid : String) (tI : List String) (pr : List Act × RemoteState) :
    (rest3 uid true tI pr).state = pr.2 := by
  unfold rest3
  rw [rest4_true_state, emitAll_snd_true]

theorem rest2_true_state (uid : String) (uR tI : List String) (pr : List Act × RemoteState) :
    (rest2 uid true uR tI pr).state = pr.2 := by
  unfold rest2
  cases scan4 uR pr.2.policies [] [] with
  | none => rfl
  | some ud => rw [rest3_true_state, emitAll_snd_true]

theorem runRest_true_state (uid : String) (uR tI : List String)
    (plan0 : List Act) (s : RemoteState) :
    (runRest uid true uR tI plan0 s).state = s := by
  unfold runRest
  cases teamsDeletable uid uR s tI with
  | none => rfl
  | some dts =>
    cases rolesDeletable uid tI s uR with
    | none => rfl
    | some drs => rw [rest2_true_state, emitAll_snd_true]

/-- C1.  For every run invoked with dryrun=true, no mutating network call is
issued: `updateResource` and `purgeResource` (lib/purge.py) return before
constructing any HTTP request, so however the run ends (completed or raised
mid-way), the remote store is exactly the initial one; only the read
operations and token acquisition reach the network. -/
theorem purge_dryrun_leaves_state (userId : String) (s : RemoteState) :
    (runMain userId true s).state = s := by
  unfold runMain
  simp only [emitAll_snd_true]
  cases h : (prePlan userId s).ok with
  | false => simp [h]
  | true => simp [h, runRest_true_state]

/-! ### Claim C7: behaviour on absent reference-set fields -/

/-- C7.  The claim says every deletability evaluation treats an absent
`emails`/`teamIds`/`accessRoleIds` field as the empty collection and never
raises, and that a user record without `accessRoleIds` is treated as holding
no roles.  The code does not: `user.get('accessRoleIds')` has no default
(purge-user.py line 39, unlike `teamIds` on line 38), so iterating it at
line 84 — or `set(accessRoleIds)` at line 64 — raises `TypeError`, and the
run aborts; likewise `set(teamEmails)` at line 95 raises when a team has no
`emails`.  At the failing input (a user record with no `accessRoleIds`, with
no other entities) both dry and real runs abort, whereas treating the field
as empty succeeds (`teamDeletable` with `emails = some []` shows the value
the claim expects, `none` the raise the code produces). -/
theorem missing_fields_raise_bug :
    (runMain "u" true ⟨[⟨"u", some [], none⟩], [], [], [], [], []⟩).ok = false ∧
    (runMain "u" false ⟨[⟨"u", some [], none⟩], [], [], [], [], []⟩).ok = false ∧
    teamDeletable "u" [] ⟨"t", none, some []⟩ = none ∧
    teamDeletable "u" [] ⟨"t", some [], some []⟩ = some true ∧
    roleDeletable "u" [] ⟨"r", none, some []⟩ = none := by
  refine ⟨rfl, rfl, rfl, rfl, rfl⟩

/-! ### Claim C8: dry-run plan versus real-run mutations -/

/-- C8 counterexample.  The sweep phases re-fetch collections after earlier
phases mutated them, so dry run and real run do not produce the same ordered
action list: with one app `a` under a deletable policy `p`, the dry run
re-reports `deletePolicy p` in the phase-4 sweep (the policy is still in the
re-fetched snapshot), while the real run, having actually deleted it, does
not.  Both runs complete. -/
theorem dryrun_real_plans_differ_cex :
    (runMain "u" true ⟨[⟨"u", some [], some []⟩], [], [], [⟨"p", some []⟩],
        [⟨"a", some "p"⟩], []⟩).ok = true ∧
    (runMain "u" false ⟨[⟨"u", some [], some []⟩], [], [], [⟨"p", some []⟩],
        [⟨"a", some "p"⟩], []⟩).ok = true ∧
    (runMain "u" true ⟨[⟨"u", some [], some []⟩], [], [], [⟨"p", some []⟩],
        [⟨"a", some "p"⟩], []⟩).plan =
      [Act.deleteApp "a", Act.deletePolicy "p", Act.deletePolicy "p", Act.deleteUser "u"] ∧
    (runMain "u" false ⟨[⟨"u", some [], some []⟩], [], [], [⟨"p", some []⟩],
        [⟨"a", some "p"⟩], []⟩).plan =
      [Act.deleteApp "a", Act.deletePolicy "p", Act.deleteUser "u"] ∧
    (runMain "u" true ⟨[⟨"u", some [], some []⟩], [], [], [⟨"p", some []⟩],
        [⟨"a", some "p"⟩], []⟩).plan ≠
    (runMain "u" false ⟨[⟨"u", some [], some []⟩], [], [], [⟨"p", some []⟩],
        [⟨"a", some "p"⟩], []⟩).plan := by
  refine ⟨rfl, rfl, rfl, rfl, by decide⟩

theorem rest4_plan_mono (uid : String) (d : Bool) (tI : List String)
    (pr : List Act × RemoteState) :
    ∃ rest, (rest4 uid d tI pr).plan = pr.1 ++ rest := by
  unfold rest4
  cases orphanRoles uid tI pr.2.roles with
  | none => exact ⟨[], by simp⟩
  | some ors =>
      exact ⟨ors.map Act.deleteRole ++ [Act.deleteUser uid], by simp [emitAll_fst]⟩

theorem rest3_plan_mono (uid : String) (d : Bool) (tI : List String)
    (pr : List Act × RemoteState) :
    ∃ rest, (rest3 uid d tI pr).plan = pr.1 ++ rest := by
  unfold rest3
  obtain ⟨r4, h4⟩ := rest4_plan_mono uid d tI
    (emitAll d pr.1 pr.2
      (((pr.2.teams.filter (fun t => decide (t.emails = some [uid]))).map Team.id).map
        (fun t => Act.unlinkTeamUsers t [uid])))
  refine ⟨((pr.2.teams.filter (fun t => decide (t.emails = some [uid]))).map Team.id).map
      (fun t => Act.unlinkTeamUsers t [uid]) ++ r4, ?_⟩
  rw [h4, emitAll_fst, List.append_assoc]

theorem rest2_plan_mono (uid : String) (d : Bool) (uR tI : List String)
    (pr : List Act × RemoteState) :
    ∃ rest, (rest2 uid d uR tI pr).plan = pr.1 ++ rest := by
  unfold rest2
  cases scan4 uR pr.2.policies [] [] with
  | none => exact ⟨[], by simp⟩
  | some ud =>
    obtain ⟨r3, h3⟩ := rest3_plan_mono uid d tI
      (emitAll d pr.1 pr.2 (updateActions ud.1 ud.2 ++ ud.2.map Act.deletePolicy))
    refine ⟨(updateActions ud.1 ud.2 ++ ud.2.map Act.deletePolicy) ++ r3, ?_⟩
    rw [h3, emitAll_fst, List.append_assoc]

theorem runRest_plan_mono (uid : String) (d : Bool) (uR tI : List String)
    (plan0 : List Act) (s : RemoteState) :
    ∃ rest, (runRest uid d uR tI plan0 s).plan = plan0 ++ rest := by
  unfold runRest
  cases teamsDeletable uid uR s tI with
  | none => exact ⟨[], by simp⟩
  | some dts =>
    cases rolesDeletable uid tI s uR with
    | none => exact ⟨[], by simp⟩
    | some drs =>
      obtain ⟨r2, h2⟩ := rest2_plan_mono uid d uR tI
        (emitAll d plan0 s (dts.map Act.deleteTeam ++ drs.map Act.deleteRole))
      refine ⟨(dts.map Act.deleteTeam ++ drs.map Act.deleteRole) ++ r2, ?_⟩
      rw [h2, emitAll_fst, List.append_assoc]

/-- C8 amended.  The two modes run the same planning code, and every call
issued up to the role-unlink phase is computed from the initial snapshot
before any mutation, so the dry-run action list and the real run's mutating
calls share that entire pre-sweep prefix (`(prePlan userId s).acts`); the
later sweep phases re-fetch collections that the real run has already
mutated, so the dry run may re-report actions for entities the real run
already deleted or unlinked, and the two lists need not be equal beyond the
shared prefix. -/
theorem plans_share_preplan_prefix (userId : String) (s : RemoteState) :
    ∃ restDry restReal,
      (runMain userId true s).plan = (prePlan userId s).acts ++ restDry ∧
      (runMain userId false s).plan = (prePlan userId s).acts ++ restReal := by
  have h : ∀ d : Bool, ∃ rest, (runMain userId d s).plan = (prePlan userId s).acts ++ rest := by
    intro d
    unfold runMain
    cases h : (prePlan userId s).ok with
    | false =>
        simp only [h, if_false, Bool.false_eq_true]
        exact ⟨[], by simp [emitAll_fst]⟩
    | true =>
        simp only [h, if_true]
        have := runRest_plan_mono userId d (prePlan userId s).uRoles
          (prePlan userId s).teamIds (emitAll d [] s (prePlan userId s).acts).1
          (emitAll d [] s (prePlan userId s).acts).2
        obtain ⟨rest, hr⟩ := this
        refine ⟨rest, ?_⟩
        rw [hr, emitAll_fst]
        simp
  obtain ⟨r1, h1⟩ := h true
  obtain ⟨r2, h2⟩ := h false
  exact ⟨r1, r2, h1, h2⟩

/-! ### Claim C3: behaviour on reported mutation failures -/

/-- C3 counterexample.  `purgeResource`/`updateResource` return
`resp.status_code` and `main` discards it, so when the store reports the
very first mutating call (`DELETE` of app `a`) as failed, no `ApplyError` is
raised and the remaining plan is not abandoned: the policy deletion and the
user deletion are still issued, the run completes, and the app is still in
the store at the end. -/
theorem failed_mutation_run_continues_cex :
    (runMain "u" false ⟨[⟨"u", some [], some []⟩], [], [], [⟨"p", some []⟩],
        [⟨"a", some "p"⟩], ["a"]⟩).ok = true ∧
    (runMain "u" false ⟨[⟨"u", some [], some []⟩], [], [], [⟨"p", some []⟩],
        [⟨"a", some "p"⟩], ["a"]⟩).plan =
      [Act.deleteApp "a", Act.deletePolicy "p", Act.deleteUser "u"] ∧
    (runMain "u" false ⟨[⟨"u", some [], some []⟩], [], [], [⟨"p", some []⟩],
        [⟨"a", some "p"⟩], ["a"]⟩).state.apps = [⟨"a", some "p"⟩] := by
  refine ⟨rfl, rfl, rfl⟩

theorem mem_updateActions (upds : List (String × Policy)) (dels : List String)
    (a : Act) (h : a ∈ updateActions upds dels) :
    ∃ q rs, a = Act.updatePolicy q rs := by
  unfold updateActions at h
  rw [List.mem_filterMap] at h
  obtain ⟨kv, _, hkv⟩ := h
  by_cases hd : kv.1 ∈ dels
  · simp [hd] at hkv
  · simp only [hd, if_false] at hkv
    exact ⟨_, _, (Option.some_injective _ hkv).symm⟩

theorem rest4_ok_plan (uid : String) (d : Bool) (tI : List String)
    (pr : List Act × RemoteState) (h : (rest4 uid d tI pr).ok = true) :
    ∃ mid, (rest4 uid d tI pr).plan = pr.1 ++ mid ++ [Act.deleteUser uid] ∧
      ∀ a ∈ mid, ∀ x, a ≠ Act.deleteUser x := by
  unfold rest4 at h ⊢
  cases hEq : orphanRoles uid tI pr.2.roles with
  | none => rw [hEq] at h; simp at h
  | some ors =>
    rw [hEq] at h
    refine ⟨ors.map Act.deleteRole, ?_, ?_⟩
    · simp [emitAll_fst, List.append_assoc]
    · intro a ha x
      obtain ⟨t, _, rfl⟩ := List.mem_map.mp ha; simp

theorem rest3_ok_plan (uid : String) (d : Bool) (tI : List String)
    (pr : List Act × RemoteState) (h : (rest3 uid d tI pr).ok = true) :
    ∃ mid, (rest3 uid d tI pr).plan = pr.1 ++ mid ++ [Act.deleteUser uid] ∧
      ∀ a ∈ mid, ∀ x, a ≠ Act.deleteUser x := by
  unfold rest3 at h ⊢
  obtain ⟨mid4, hp, hm⟩ := rest4_ok_plan uid d tI _ h
  rw [hp, emitAll_fst]
  refine ⟨((pr.2.teams.filter (fun t => decide (t.emails = some [uid]))).map Team.id).map
      (fun t => Act.unlinkTeamUsers t [uid]) ++ mid4, by simp [List.append_assoc], ?_⟩
  intro a ha x
  rcases List.mem_append.mp ha with hb | hb
  · obtain ⟨t, _, rfl⟩ := List.mem_map.mp hb; simp
  · exact hm a hb x

theorem rest2_ok_plan (uid : String) (d : Bool) (uR tI : List String)
    (pr : List Act × RemoteState) (h : (rest2 uid d uR tI pr).ok = true) :
    ∃ mid, (rest2 uid d uR tI pr).plan = pr.1 ++ mid ++ [Act.deleteUser uid] ∧
      ∀ a ∈ mid, ∀ x, a ≠ Act.deleteUser x := by
  unfold rest2 at h ⊢
  cases hEq : scan4 uR pr.2.policies [] [] with
  | none => rw [hEq] at h; simp at h
  | some ud =>
    rw [hEq] at h
    obtain ⟨mid3, hp, hm⟩ := rest3_ok_plan uid d tI _ h
    rw [hp, emitAll_fst]
    refine ⟨(updateActions ud.1 ud.2 ++ ud.2.map Act.deletePolicy) ++ mid3,
      by simp [List.append_assoc], ?_⟩
    intro a ha x
    rcases List.mem_append.mp ha with hb | hb
    · rcases List.mem_append.mp hb with hc | hc
      · obtain ⟨q, rs, rfl⟩ := mem_updateActions _ _ _ hc; simp
      · obtain ⟨t, _, rfl⟩ := List.mem_map.mp hc; simp
    · exact hm a hb x

theorem runRest_ok_plan (uid : String) (d : Bool) (uR tI : List String)
    (plan0 : List Act) (s : RemoteState)
    (h : (runRest uid d uR tI plan0 s).ok = true) :
    ∃ mid, (runRest uid d uR tI plan0 s).plan = plan0 ++ mid ++ [Act.deleteUser uid] ∧
      ∀ a ∈ mid, ∀ x, a ≠ Act.deleteUser x := by
  unfold runRest at h ⊢
  cases hT : teamsDeletable uid uR s tI with
  | none => rw [hT] at h; simp at h
  | some dts =>
    rw [hT] at h
    cases hR : rolesDeletable uid tI s uR with
    | none => rw [hR] at h; simp at h
    | some drs =>
      rw [hR] at h
      obtain ⟨mid2, hp, hm⟩ := rest2_ok_plan uid d uR tI _ h
      rw [hp, emitAll_fst]
      refine ⟨(dts.map Act.deleteTeam ++ drs.map Act.deleteRole) ++ mid2,
        by simp [List.append_assoc], ?_⟩
      intro a ha x
      rcases List.mem_append.mp ha with hb | hb
      · rcases List.mem_append.mp hb with hc | hc
        · obtain ⟨t, _, rfl⟩ := List.mem_map.mp hc; simp
        · obtain ⟨t, _, rfl⟩ := List.mem_map.mp hc; simp
      · exact hm a hb x

theorem prePlan_acts_no_user (uid : String) (s : RemoteState) :
    ∀ a ∈ (prePlan uid s).acts, ∀ x, a ≠ Act.deleteUser x := by
  intro a ha x
  rintro rfl
  simp only [prePlan] at ha
  split at ha
  · simp at ha
  · split at ha
    · simp at ha
    · split at ha
      · simp [List.mem_flatten, List.mem_flatMap] at ha
      · simp [List.mem_flatten, List.mem_flatMap] at ha

theorem runMain_ok_plan (uid : String) (d : Bool) (s : RemoteState)
    (h : (runMain uid d s).ok = true) :
    ∃ pre, (runMain uid d s).plan = pre ++ [Act.deleteUser uid] ∧
      ∀ a ∈ pre, ∀ x, a ≠ Act.deleteUser x := by
  simp only [runMain] at h ⊢
  cases hOk : (prePlan uid s).ok with
  | false => rw [hOk] at h; simp at h
  | true =>
    rw [hOk] at h
    simp only [if_true] at h ⊢
    obtain ⟨mid, hp, hm⟩ := runRest_ok_plan uid d (prePlan uid s).uRoles
      (prePlan uid s).teamIds (emitAll d [] s (prePlan uid s).acts).1
      (emitAll d [] s (prePlan uid s).acts).2 h
    rw [hp, emitAll_fst]
    refine ⟨(prePlan uid s).acts ++ mid, by simp [List.append_assoc], ?_⟩
    intro a ha x
    rcases List.mem_append.mp ha with hb | hb
    · exact prePlan_acts_no_user uid s a hb x
    · exact hm a hb x

/-! ### Claim C4: the user deletion is the last action -/

/-- C4.  In every completed run (dry or real), the deletion of the user
entity is the last action of the plan: the plan decomposes as a prefix
holding no user-deletion call at all, followed by exactly
`deleteUser userId` (purge-user.py line 186 runs after every other phase). -/
theorem user_deletion_last (userId : String) (d : Bool) (s : RemoteState)
    (h : (runMain userId d s).ok = true) :
    ∃ pre, (runMain userId d s).plan = pre ++ [Act.deleteUser userId] ∧
      ∀ a ∈ pre, ∀ x, a ≠ Act.deleteUser x :=
  runMain_ok_plan userId d s h

/-- Witness for C4 at a store holding only the user. -/
theorem user_deletion_last_w :
    (runMain "u" true ⟨[⟨"u", some [], some []⟩], [], [], [], [], []⟩).ok = true ∧
    ∃ pre, (runMain "u" true ⟨[⟨"u", some [], some []⟩], [], [], [], [], []⟩).plan =
        pre ++ [Act.deleteUser "u"] ∧
      ∀ a ∈ pre, ∀ x, a ≠ Act.deleteUser x :=
  ⟨rfl, user_deletion_last "u" true ⟨[⟨"u", some [], some []⟩], [], [], [], [], []⟩ rfl⟩

/-- C3 amended.  The run never raises on a mutating call the store reports
as failed — `updateResource`/`purgeResource` return `resp.status_code` and
`main` discards it — so execution continues through every remaining action
(no abandonment, no rollback of earlier successes): whatever the set of
failure-reported ids, a real run that completes still ends with the user
deletion as its final issued call. -/
theorem failed_mutation_ignored_run_completes (userId : String) (s : RemoteState)
    (h : (runMain userId false s).ok = true) :
    (runMain userId false s).plan.getLast? = some (Act.deleteUser userId) := by
  obtain ⟨pre, hp, _⟩ := runMain_ok_plan userId false s h
  rw [hp]
  exact List.getLast?_concat _

/-- Witness for the amended C3 at the counterexample store, where the first
mutating call (`deleteApp "a"`) is reported failed. -/
theorem failed_mutation_ignored_run_completes_w :
    (runMain "u" false ⟨[⟨"u", some [], some []⟩], [], [], [⟨"p", some []⟩],
        [⟨"a", some "p"⟩], ["a"]⟩).ok = true ∧
    (runMain "u" false ⟨[⟨"u", some [], some []⟩], [], [], [⟨"p", some []⟩],
        [⟨"a", some "p"⟩], ["a"]⟩).plan.getLast? = some (Act.deleteUser "u") :=
  ⟨rfl, failed_mutation_ignored_run_completes "u"
    ⟨[⟨"u", some [], some []⟩], [], [], [⟨"p", some []⟩], [⟨"a", some "p"⟩], ["a"]⟩ rfl⟩

/-! ### Claim C6: the phase-1 policy deletability decision -/

theorem mem_flattenRuleRoleIds (rules : List Rule) (y : Option String) :
    y ∈ flattenRuleRoleIds rules ↔
      ∃ r, r ∈ rules ∧ ((r.accessRoleIds = none ∧ y = none) ∨
        ∃ l, r.accessRoleIds = some l ∧ ∃ x, y = some x ∧ x ∈ l) := by
  induction rules with
  | nil => simp [flattenRuleRoleIds]
  | cons r rs ih =>
    have hcons : flattenRuleRoleIds (r :: rs) =
        (match r.accessRoleIds with
         | none => [none]
         | some l => l.map some) ++ flattenRuleRoleIds rs := rfl
    rw [hcons, List.mem_append, ih]
    cases hr : r.accessRoleIds with
    | none =>
      simp only [List.mem_cons]
      constructor
      · rintro (hy | ⟨r', hr', hc⟩)
        · exact ⟨r, Or.inl rfl, Or.inl ⟨hr, by simpa using hy⟩⟩
        · exact ⟨r', Or.inr hr', hc⟩
      · rintro ⟨r', hr' | hr', hc⟩
        · subst hr'
          rcases hc with ⟨_, hy⟩ | ⟨l, hl, _⟩
          · exact Or.inl (by simp [hy])
          · rw [hr] at hl; cases hl
        · exact Or.inr ⟨r', hr', hc⟩
    | some l =>
      simp only [List.mem_cons, List.mem_map]
      constructor
      · rintro (⟨x, hx, hy⟩ | ⟨r', hr', hc⟩)
        · exact ⟨r, Or.inl rfl, Or.inr ⟨l, hr, x, hy.symm, hx⟩⟩
        · exact ⟨r', Or.inr hr', hc⟩
      · rintro ⟨r', hr' | hr', hc⟩
        · subst hr'
          rcases hc with ⟨hl, _⟩ | ⟨l', hl', x, hy, hx⟩
          · rw [hr] at hl; cases hl
          · rw [hr] at hl'
            cases hl'
            exact Or.inl ⟨x, hx, hy.symm⟩
        · exact Or.inr ⟨r', hr', hc⟩

/-- C6.  The phase-1 policy deletability decision (purge-user.py lines 55-67)
returns true exactly when the union of `accessRoleIds` over all rules of the
policy is a subset of the purged user's role-id set `R`; in particular a
policy whose rules reference no roles at all is judged deletable. -/
theorem policy_deletable_iff_subset (p : Policy) (R : List String) (rules : List Rule)
    (hr : p.rules = some rules) (hf : ∀ r ∈ rules, r.accessRoleIds ≠ none) :
    policyDeletable (some R) p = some true ↔
      ∀ (r : Rule) (l : List String), r ∈ rules → r.accessRoleIds = some l →
        ∀ x ∈ l, x ∈ R := by
  unfold policyDeletable
  rw [hr, Option.some_bind, Option.map_some', Option.some_inj]
  rw [List.all_eq_true]
  constructor
  · intro hall r l hrr hl x hx
    have hy : (some x : Option String) ∈ flattenRuleRoleIds rules :=
      (mem_flattenRuleRoleIds rules (some x)).mpr ⟨r, hrr, Or.inr ⟨l, hl, x, rfl, hx⟩⟩
    have := hall _ hy
    simpa using this
  · intro hsub y hy
    rcases (mem_flattenRuleRoleIds rules y).mp hy with ⟨r, hrr, ⟨hn, _⟩ | ⟨l, hl, x, hxy, hx⟩⟩
    · exact absurd hn (hf r hrr)
    · subst hxy
      simpa using hsub r l hrr hl x hx

/-- Witness for C6: a policy with one rule over role `r1`, against the role
sets `[r1]` (deletable) — the iff is obtained from the theorem with its
hypotheses discharged on the concrete input. -/
theorem policy_deletable_iff_subset_w :
    (policyDeletable (some ["r1"]) ⟨"p", some [⟨some ["r1"]⟩]⟩ = some true ↔
      ∀ (r : Rule) (l : List String), r ∈ [(⟨some ["r1"]⟩ : Rule)] →
        r.accessRoleIds = some l → ∀ x ∈ l, x ∈ ["r1"]) ∧
    policyDeletable (some ["r1"]) ⟨"p", some [⟨some ["r1"]⟩]⟩ = some true :=
  ⟨policy_deletable_iff_subset ⟨"p", some [⟨some ["r1"]⟩]⟩ ["r1"] [⟨some ["r1"]⟩]
    rfl (by decide), rfl⟩

/-! ### Claim C2: a role shared with another user -/

/-- C2 counterexample.  User `u` holds role `r2`, which is shared with user
`u2`; policy `p` has a single rule referencing only `r2`.  The phase-1/4
deletability tests only check that the rule's roles are a subset of the
user's role ids (purge-user.py lines 63-67 and 137-143) — they never look at
whether those roles are shared — so the run deletes policy `p`: the policy
does not survive unchanged, contrary to the claim (role `r2` itself is
indeed never deleted). -/
theorem shared_role_policy_deleted_cex :
    (runMain "u" false ⟨[⟨"u", some [], some ["r2"]⟩], [],
        [⟨"r2", some ["u", "u2"], some []⟩], [⟨"p", some [⟨some ["r2"]⟩]⟩], [], []⟩).ok
      = true ∧
    Act.deletePolicy "p" ∈ (runMain "u" false ⟨[⟨"u", some [], some ["r2"]⟩], [],
        [⟨"r2", some ["u", "u2"], some []⟩], [⟨"p", some [⟨some ["r2"]⟩]⟩], [], []⟩).plan ∧
    (runMain "u" false ⟨[⟨"u", some [], some ["r2"]⟩], [],
        [⟨"r2", some ["u", "u2"], some []⟩], [⟨"p", some [⟨some ["r2"]⟩]⟩], [], []⟩).state.policies
      = [] ∧
    Act.deleteRole "r2" ∉ (runMain "u" false ⟨[⟨"u", some [], some ["r2"]⟩], [],
        [⟨"r2", some ["u", "u2"], some []⟩], [⟨"p", some [⟨some ["r2"]⟩]⟩], [], []⟩).plan := by
  refine ⟨rfl, by decide, rfl, by decide⟩

/-- The user-id payload of a role-membership unlink call (the only kind of
call that removes entries from a role's `emails`). -/
def actRoleUnlinkData : Act → List String
  | .unlinkRoleUsers _ us => us
  | _ => []

/-- Invariant for the amended C2: every role in the store with id `R2` still
lists `U2` among its member emails. -/
def RoleKeeps (R2 U2 : String) (s : RemoteState) : Prop :=
  ∀ ro ∈ s.roles, ro.id = R2 → U2 ∈ ro.emails.getD []

theorem getD_map_filter (o : Option (List String)) (p : String → Bool) :
    (o.map (fun es => es.filter p)).getD [] = (o.getD []).filter p := by
  cases o <;> rfl

theorem roleKeeps_mutate (R2 U2 : String) (d : Bool) (s : RemoteState) (a : Act)
    (hU : U2 ∉ actRoleUnlinkData a) (h : RoleKeeps R2 U2 s) :
    RoleKeeps R2 U2 (mutate d s a) := by
  unfold mutate
  by_cases hd : d = true
  · simpa [hd] using h
  · simp only [hd, if_false, Bool.false_eq_true]
    by_cases hf : actionTarget a ∈ s.failing
    · simpa [hf] using h
    · simp only [hf, if_false]
      cases a with
      | deleteApp i => exact h
      | deletePolicy i => exact h
      | unlinkTeamUsers t us => exact h
      | unlinkRoleUsers r us =>
          intro ro hro hid
          obtain ⟨ro0, hro0, rfl⟩ := List.mem_map.mp hro
          by_cases hr : ro0.id = r
          · simp only [hr, if_true]
            have hid0 : ro0.id = R2 := by simpa [hr] using hid
            have hmem := h ro0 hro0 hid0
            simp only [getD_map_filter]
            rw [List.mem_filter]
            refine ⟨hmem, ?_⟩
            simp only [actRoleUnlinkData] at hU
            simpa using hU
          · simp only [hr, if_false]
            exact h ro0 hro0 (by simpa [hr] using hid)
      | unlinkRoleTeams r ts =>
          intro ro hro hid
          obtain ⟨ro0, hro0, rfl⟩ := List.mem_map.mp hro
          by_cases hr : ro0.id = r
          · simp only [hr, if_true]
            exact h ro0 hro0 (by simpa [hr] using hid)
          · simp only [hr, if_false]
            exact h ro0 hro0 (by simpa [hr] using hid)
      | deleteTeam i => exact h
      | deleteRole i =>
          intro ro hro hid
          exact h ro (List.mem_of_mem_filter hro) hid
      | updatePolicy i rs => exact h
      | deleteUser i => exact h

theorem roleKeeps_emitAll (R2 U2 : String) (d : Bool) (as : List Act) :
    ∀ (acc : List Act) (s : RemoteState),
      (∀ a ∈ as, U2 ∉ actRoleUnlinkData a) → RoleKeeps R2 U2 s →
      RoleKeeps R2 U2 (emitAll d acc s as).2 := by
  induction as with
  | nil => intro acc s _ h; exact h
  | cons a as ih =>
      intro acc s hdata h
      simp only [emitAll]
      exact ih _ _ (fun b hb => hdata b (List.mem_cons_of_mem a hb))
        (roleKeeps_mutate R2 U2 d s a (hdata a (List.mem_cons_self a as)) h)

theorem getRole_mem_id (s : RemoteState) (x : String) (ro : Role)
    (h : getRole s x = some ro) : ro ∈ s.roles ∧ ro.id = x := by
  refine ⟨List.mem_of_find?_eq_some h, ?_⟩
  have := List.find?_some h
  simpa using this

theorem rolesDeletable_sound (uid : String) (tI : List String) (s : RemoteState)
    (rs : List String) :
    ∀ ds, rolesDeletable uid tI s rs = some ds →
      ∀ x ∈ ds, ∃ ro, getRole s x = some ro ∧ roleDeletable uid tI ro = some true := by
  induction rs with
  | nil =>
      intro ds h x hx
      simp only [rolesDeletable, Option.some_inj] at h
      subst h
      cases hx
  | cons r rs ih =>
      intro ds h x hx
      simp only [rolesDeletable] at h
      cases hg : getRole s r with
      | none => rw [hg] at h; cases h
      | some ro =>
        rw [hg, Option.some_bind] at h
        cases hd : roleDeletable uid tI ro with
        | none => rw [hd] at h; cases h
        | some b =>
          rw [hd, Option.some_bind] at h
          cases hrec : rolesDeletable uid tI s rs with
          | none => rw [hrec] at h; cases h
          | some ds2 =>
            rw [hrec, Option.map_some'] at h
            simp only [Option.some_inj] at h
            subst h
            cases b with
            | true =>
              simp only [if_true] at hx
              rcases List.mem_cons.mp hx with rfl | hx2
              · exact ⟨ro, hg, hd⟩
              · exact ih ds2 hrec x hx2
            | false =>
              simp only [Bool.false_eq_true, if_false] at hx
              exact ih ds2 hrec x hx

theorem orphanRoles_sound (uid : String) (tI : List String) (rl : List Role) :
    ∀ os, orphanRoles uid tI rl = some os →
      ∀ x ∈ os, ∃ ro ∈ rl, ro.id = x ∧ orphanRoleCheck uid tI ro = some true := by
  induction rl with
  | nil =>
      intro os h x hx
      simp only [orphanRoles, Option.some_inj] at h
      subst h
      cases hx
  | cons ro rl ih =>
      intro os h x hx
      simp only [orphanRoles] at h
      cases hc : orphanRoleCheck uid tI ro with
      | none => rw [hc] at h; cases h
      | some b =>
        rw [hc, Option.some_bind] at h
        cases hrec : orphanRoles uid tI rl with
        | none => rw [hrec] at h; cases h
        | some os2 =>
          rw [hrec, Option.map_some'] at h
          simp only [Option.some_inj] at h
          subst h
          cases b with
          | true =>
            simp only [if_true] at hx
            rcases List.mem_cons.mp hx with rfl | hx2
            · exact ⟨ro, List.mem_cons_self ro rl, rfl, hc⟩
            · obtain ⟨ro2, hm, hi, hck⟩ := ih os2 hrec x hx2
              exact ⟨ro2, List.mem_cons_of_mem ro hm, hi, hck⟩
          | false =>
            simp only [Bool.false_eq_true, if_false] at hx
            obtain ⟨ro2, hm, hi, hck⟩ := ih os2 hrec x hx
            exact ⟨ro2, List.mem_cons_of_mem ro hm, hi, hck⟩

theorem rest4_no_delRole (uid R2 U2 : String) (d : Bool) (tI : List String)
    (pr : List Act × RemoteState) (hne : U2 ≠ uid)
    (hk : RoleKeeps R2 U2 pr.2) (h0 : Act.deleteRole R2 ∉ pr.1) :
    Act.deleteRole R2 ∉ (rest4 uid d tI pr).plan := by
  unfold rest4
  cases hO : orphanRoles uid tI pr.2.roles with
  | none => exact h0
  | some ors =>
    intro hmem
    simp only [emitAll_fst] at hmem
    rcases List.mem_append.mp hmem with hb | hb
    · exact h0 hb
    · rcases List.mem_append.mp hb with hc | hc
      · obtain ⟨x, hx, heq⟩ := List.mem_map.mp hc
        have hxR : x = R2 := by
          injection heq
        subst hxR
        obtain ⟨ro, hro, hid, hck⟩ := orphanRoles_sound uid tI pr.2.roles ors hO x hx
        have hU2 := hk ro hro hid
        unfold orphanRoleCheck at hck
        by_cases hem : ro.emails = some [uid]
        · rw [hem] at hU2
          simp at hU2
          exact hne hU2
        · rw [if_neg hem] at hck
          simp at hck
      · simp at hc

theorem rest3_no_delRole (uid R2 U2 : String) (d : Bool) (tI : List String)
    (pr : List Act × RemoteState) (hne : U2 ≠ uid)
    (hk : RoleKeeps R2 U2 pr.2) (h0 : Act.deleteRole R2 ∉ pr.1) :
    Act.deleteRole R2 ∉ (rest3 uid d tI pr).plan := by
  unfold rest3
  refine rest4_no_delRole uid R2 U2 d tI _ hne ?_ ?_
  · refine roleKeeps_emitAll R2 U2 d _ _ _ ?_ hk
    intro a ha
    obtain ⟨t, _, rfl⟩ := List.mem_map.mp ha
    simp [actRoleUnlinkData]
  · rw [emitAll_fst]
    intro hmem
    rcases List.mem_append.mp hmem with hb | hb
    · exact h0 hb
    · obtain ⟨t, _, heq⟩ := List.mem_map.mp hb
      cases heq

theorem rest2_no_delRole (uid R2 U2 : String) (d : Bool) (uR tI : List String)
    (pr : List Act × RemoteState) (hne : U2 ≠ uid)
    (hk : RoleKeeps R2 U2 pr.2) (h0 : Act.deleteRole R2 ∉ pr.1) :
    Act.deleteRole R2 ∉ (rest2 uid d uR tI pr).plan := by
  unfold rest2
  cases hS : scan4 uR pr.2.policies [] [] with
  | none => exact h0
  | some ud =>
    refine rest3_no_delRole uid R2 U2 d tI _ hne ?_ ?_
    · refine roleKeeps_emitAll R2 U2 d _ _ _ ?_ hk
      intro a ha
      rcases List.mem_append.mp ha with hb | hb
      · obtain ⟨q, rs, rfl⟩ := mem_updateActions _ _ _ hb
        simp [actRoleUnlinkData]
      · obtain ⟨q, _, rfl⟩ := List.mem_map.mp hb
        simp [actRoleUnlinkData]
    · rw [emitAll_fst]
      intro hmem
      rcases List.mem_append.mp hmem with hb | hb
      · exact h0 hb
      · rcases List.mem_append.mp hb with hc | hc
        · obtain ⟨q, rs, heq⟩ := mem_updateActions _ _ _ hc
          rw [heq] at hc
          obtain ⟨kv, _, hkv⟩ := List.mem_filterMap.mp hc
          cases heq
        · obtain ⟨q, _, heq⟩ := List.mem_map.mp hc
          cases heq

theorem runRest_no_delRole (uid R2 U2 : String) (d : Bool) (uR tI : List String)
    (plan0 : List Act) (s : RemoteState) (hne : U2 ≠ uid)
    (hk : RoleKeeps R2 U2 s) (h0 : Act.deleteRole R2 ∉ plan0) :
    Act.deleteRole R2 ∉ (runRest uid d uR tI plan0 s).plan := by
  unfold runRest
  cases hT : teamsDeletable uid uR s tI with
  | none => exact h0
  | some dts =>
    cases hR : rolesDeletable uid tI s uR with
    | none => exact h0
    | some drs =>
      refine rest2_no_delRole uid R2 U2 d uR tI _ hne ?_ ?_
      · refine roleKeeps_emitAll R2 U2 d _ _ _ ?_ hk
        intro a ha
        rcases List.mem_append.mp ha with hb | hb
        · obtain ⟨t, _, rfl⟩ := List.mem_map.mp hb
          simp [actRoleUnlinkData]
        · obtain ⟨t, _, rfl⟩ := List.mem_map.mp hb
          simp [actRoleUnlinkData]
      · rw [emitAll_fst]
        intro hmem
        rcases List.mem_append.mp hmem with hb | hb
        · exact h0 hb
        · rcases List.mem_append.mp hb with hc | hc
          · obtain ⟨t, _, heq⟩ := List.mem_map.mp hc
            cases heq
          · obtain ⟨x, hx, heq⟩ := List.mem_map.mp hc
            have hxR : x = R2 := by injection heq
            subst hxR
            obtain ⟨ro, hg, hdel⟩ := rolesDeletable_sound uid tI s uR drs hR x hx
            obtain ⟨hro, hid⟩ := getRole_mem_id s x ro hg
            have hU2 := hk ro hro hid
            unfold roleDeletable at hdel
            cases hem : ro.emails with
            | none => rw [hem] at hdel; cases hdel
            | some es =>
              rw [hem, Option.some_bind] at hdel
              rw [hem] at hU2
              simp only [Option.getD_some] at hU2
              by_cases hall : es.all (fun e => e = uid) = true
              · have := List.all_eq_true.mp hall U2 hU2
                simp at this
                exact hne this
              · rw [if_neg (by simpa using hall)] at hdel
                simp at hdel

theorem prePlan_acts_no_delRole (uid : String) (s : RemoteState) :
    ∀ x, Act.deleteRole x ∉ (prePlan uid s).acts := by
  intro x hx
  simp only [prePlan] at hx
  split at hx
  · simp at hx
  · split at hx
    · simp at hx
    · split at hx
      · simp [List.mem_flatten] at hx
      · simp [List.mem_flatten, List.mem_flatMap] at hx

theorem prePlan_roleUnlink_payload (uid : String) (s : RemoteState) :
    ∀ r us, Act.unlinkRoleUsers r us ∈ (prePlan uid s).acts → us = [uid] := by
  intro r us h
  simp only [prePlan] at h
  split at h
  · simp at h
  · split at h
    · simp at h
    · split at h
      · simp [List.mem_flatten] at h
      · simp only [List.mem_append, List.mem_map, List.mem_flatten, List.mem_flatMap] at h
        rcases h with ((⟨a, _, ha⟩ | ⟨a, _, ha⟩) | ⟨a, _, ha⟩) | ⟨a, _, ha⟩
        · cases ha
        · cases ha
        · cases ha
        · simp only [List.mem_cons] at ha
          rcases ha with ha | ha | ha
          · injection ha
          · cases ha
          · cases ha

/-- C2 amended.  If every role entity with id `R2` in the store lists another
user `U2 ≠ userId` among its member emails, then no run (dry or real) ever
plans or issues a deletion of role `R2`: the direct role cleanup requires
`set(roleEmails) - set([userId])` to be empty and the orphan sweep requires
`roleEmails == [userId]`, and the only calls that remove entries from a
role's `emails` carry exactly `[userId]`, so `U2` stays and both tests keep
failing.  (The surviving-policy part of the original claim is false: a
policy whose rules reference only `R2` is deleted, since `R2` is among the
user's role ids — see the counterexample.) -/
theorem shared_role_never_deleted (userId R2 U2 : String) (d : Bool) (s : RemoteState)
    (hne : U2 ≠ userId)
    (hshared : ∀ ro ∈ s.roles, ro.id = R2 → U2 ∈ ro.emails.getD []) :
    Act.deleteRole R2 ∉ (runMain userId d s).plan := by
  simp only [runMain]
  cases hOk : (prePlan userId s).ok with
  | false =>
    simp only [hOk, Bool.false_eq_true, if_false]
    intro hmem
    simp only [emitAll_fst, List.nil_append] at hmem
    exact prePlan_acts_no_delRole userId s R2 hmem
  | true =>
    simp only [hOk, if_true]
    refine runRest_no_delRole userId R2 U2 d (prePlan userId s).uRoles
      (prePlan userId s).teamIds _ _ hne ?_ ?_
    · refine roleKeeps_emitAll R2 U2 d _ _ _ ?_ hshared
      intro a ha
      cases a with
      | unlinkRoleUsers r us =>
        have := prePlan_roleUnlink_payload userId s r us ha
        subst this
        simp only [actRoleUnlinkData]
        intro hU
        rcases List.mem_singleton.mp hU with rfl
        exact hne rfl
      | deleteApp i => simp [actRoleUnlinkData]
      | deletePolicy i => simp [actRoleUnlinkData]
      | unlinkTeamUsers t us => simp [actRoleUnlinkData]
      | unlinkRoleTeams r ts => simp [actRoleUnlinkData]
      | deleteTeam i => simp [actRoleUnlinkData]
      | deleteRole i => simp [actRoleUnlinkData]
      | updatePolicy i rs => simp [actRoleUnlinkData]
      | deleteUser i => simp [actRoleUnlinkData]
    · intro hmem
      simp only [emitAll_fst, List.nil_append] at hmem
      exact prePlan_acts_no_delRole userId s R2 hmem

/-- Witness for the amended C2: role `r2` shared by `u` and `u2`; neither
the role cleanup nor the orphan sweep deletes `r2`. -/
theorem shared_role_never_deleted_w :
    Act.deleteRole "r2" ∉ (runMain "u" true ⟨[⟨"u", some [], some ["r2"]⟩], [],
      [⟨"r2", some ["u", "u2"], some []⟩], [⟨"q", some [⟨some ["r2"]⟩]⟩], [], []⟩).plan :=
  shared_role_never_deleted "u" "r2" "u2" true
    ⟨[⟨"u", some [], some ["r2"]⟩], [],
      [⟨"r2", some ["u", "u2"], some []⟩], [⟨"q", some [⟨some ["r2"]⟩]⟩], [], []⟩
    (by decide)
    (by
      intro ro hro hid
      rcases List.mem_singleton.mp hro with rfl
      decide)

/-! ### Claim C9: the team/role orphan sweep -/

/-- C9 counterexample.  Team `t` has `emails == [u]` exactly (an orphan team)
but is not among the user's `teamIds`; the orphan sweep (purge-user.py lines
158-168) plans only the unlink `DELETE /teams/t/users/` — there is no
`deleteTeam` call anywhere in the plan, and in a real run the team entity
survives (with its `emails` emptied), contrary to the claimed unlink+delete
pair. -/
theorem orphan_team_not_deleted_cex :
    (runMain "u" true ⟨[⟨"u", some [], some []⟩], [⟨"t", some ["u"], some ["x"]⟩],
        [], [], [], []⟩).ok = true ∧
    Act.unlinkTeamUsers "t" ["u"] ∈ (runMain "u" true ⟨[⟨"u", some [], some []⟩],
        [⟨"t", some ["u"], some ["x"]⟩], [], [], [], []⟩).plan ∧
    Act.deleteTeam "t" ∉ (runMain "u" true ⟨[⟨"u", some [], some []⟩],
        [⟨"t", some ["u"], some ["x"]⟩], [], [], [], []⟩).plan ∧
    (runMain "u" false ⟨[⟨"u", some [], some []⟩], [⟨"t", some ["u"], some ["x"]⟩],
        [], [], [], []⟩).state.teams = [⟨"t", some [], some ["x"]⟩] := by
  refine ⟨rfl, by decide, by decide, rfl⟩

theorem orphanRoles_complete (uid : String) (tI : List String) (rl : List Role) :
    ∀ os, orphanRoles uid tI rl = some os →
      ∀ r ∈ rl, orphanRoleCheck uid tI r = some true → r.id ∈ os := by
  induction rl with
  | nil => intro os _ r hr; cases hr
  | cons r0 rl ih =>
      intro os h r hr hck
      simp only [orphanRoles] at h
      cases hc : orphanRoleCheck uid tI r0 with
      | none => rw [hc] at h; cases h
      | some b =>
        rw [hc, Option.some_bind] at h
        cases hrec : orphanRoles uid tI rl with
        | none => rw [hrec] at h; cases h
        | some os2 =>
          rw [hrec, Option.map_some'] at h
          simp only [Option.some_inj] at h
          subst h
          rcases List.mem_cons.mp hr with rfl | hr2
          · rw [hck] at hc
            have hb : b = true := by injection hc with hb; exact hb.symm
            subst hb
            simp only [if_true]
            exact List.mem_cons_self r.id os2
          · have := ih os2 hrec r hr2 hck
            cases b with
            | true => exact List.mem_cons_of_mem r0.id this
            | false => simpa using this

theorem rest4_true_orphan_roles (uid : String) (tI : List String)
    (pr : List Act × RemoteState) (hok : (rest4 uid true tI pr).ok = true) :
    ∀ r ∈ pr.2.roles, orphanRoleCheck uid tI r = some true →
      Act.deleteRole r.id ∈ (rest4 uid true tI pr).plan := by
  unfold rest4 at hok ⊢
  cases hO : orphanRoles uid tI pr.2.roles with
  | none => rw [hO] at hok; simp at hok
  | some ors =>
    intro r hr hck
    have hid := orphanRoles_complete uid tI pr.2.roles ors hO r hr hck
    simp only [emitAll_fst]
    refine List.mem_append.mpr (Or.inr (List.mem_append.mpr (Or.inl ?_)))
    exact List.mem_map.mpr ⟨r.id, hid, rfl⟩

theorem rest3_true_orphans (uid : String) (tI : List String)
    (pr : List Act × RemoteState) (hok : (rest3 uid true tI pr).ok = true) :
    (∀ t ∈ pr.2.teams, t.emails = some [uid] →
      Act.unlinkTeamUsers t.id [uid] ∈ (rest3 uid true tI pr).plan) ∧
    (∀ r ∈ pr.2.roles, orphanRoleCheck uid tI r = some true →
      Act.deleteRole r.id ∈ (rest3 uid true tI pr).plan) := by
  unfold rest3 at hok ⊢
  constructor
  · intro t ht hem
    obtain ⟨rest, hplan⟩ := rest4_plan_mono uid true tI
      (emitAll true pr.1 pr.2
        (((pr.2.teams.filter (fun t => decide (t.emails = some [uid]))).map Team.id).map
          (fun t => Act.unlinkTeamUsers t [uid])))
    rw [hplan, emitAll_fst]
    refine List.mem_append.mpr (Or.inl (List.mem_append.mpr (Or.inr ?_)))
    refine List.mem_map.mpr ⟨t.id, ?_, rfl⟩
    refine List.mem_map.mpr ⟨t, ?_, rfl⟩
    refine List.mem_filter.mpr ⟨ht, ?_⟩
    simp [hem]
  · intro r hr hck
    have h4 := rest4_true_orphan_roles uid tI
      (emitAll true pr.1 pr.2
        (((pr.2.teams.filter (fun t => decide (t.emails = some [uid]))).map Team.id).map
          (fun t => Act.unlinkTeamUsers t [uid]))) hok
    refine h4 r ?_ hck
    rw [emitAll_snd_true]
    exact hr

theorem rest2_true_orphans (uid : String) (uR tI : List String)
    (pr : List Act × RemoteState) (hok : (rest2 uid true uR tI pr).ok = true) :
    (∀ t ∈ pr.2.teams, t.emails = some [uid] →
      Act.unlinkTeamUsers t.id [uid] ∈ (rest2 uid true uR tI pr).plan) ∧
    (∀ r ∈ pr.2.roles, orphanRoleCheck uid tI r = some true →
      Act.deleteRole r.id ∈ (rest2 uid true uR tI pr).plan) := by
  unfold rest2 at hok ⊢
  cases hS : scan4 uR pr.2.policies [] [] with
  | none => rw [hS] at hok; simp at hok
  | some ud =>
    rw [hS] at hok
    have h3 := rest3_true_orphans uid tI
      (emitAll true pr.1 pr.2 (updateActions ud.1 ud.2 ++ ud.2.map Act.deletePolicy)) hok
    rw [emitAll_snd_true] at h3
    exact h3

theorem runRest_true_orphans (uid : String) (uR tI : List String)
    (plan0 : List Act) (s : RemoteState)
    (hok : (runRest uid true uR tI plan0 s).ok = true) :
    (∀ t ∈ s.teams, t.emails = some [uid] →
      Act.unlinkTeamUsers t.id [uid] ∈ (runRest uid true uR tI plan0 s).plan) ∧
    (∀ r ∈ s.roles, orphanRoleCheck uid tI r = some true →
      Act.deleteRole r.id ∈ (runRest uid true uR tI plan0 s).plan) := by
  unfold runRest at hok ⊢
  cases hT : teamsDeletable uid uR s tI with
  | none => rw [hT] at hok; simp at hok
  | some dts =>
    rw [hT] at hok
    cases hR : rolesDeletable uid tI s uR with
    | none => rw [hR] at hok; simp at hok
    | some drs =>
      rw [hR] at hok
      have h2 := rest2_true_orphans uid uR tI
        (emitAll true plan0 s (dts.map Act.deleteTeam ++ drs.map Act.deleteRole)) hok
      rw [emitAll_snd_true] at h2
      exact h2

theorem prePlan_ok_inv (uid : String) (s : RemoteState)
    (h : (prePlan uid s).ok = true) :
    ∃ u, getUser s uid = some u ∧
      (∃ dp, phase1Deletables u.accessRoleIds s (buildPolicyAppMapper s.apps) = some dp) ∧
      ∃ uR, u.accessRoleIds = some uR := by
  simp only [prePlan] at h
  split at h
  · simp at h
  · rename_i u hu
    split at h
    · simp at h
    · rename_i dp hdp
      split at h
      · simp at h
      · rename_i uR hur
        exact ⟨u, hu, ⟨dp, hdp⟩, ⟨uR, hur⟩⟩

theorem prePlan_fields (uid : String) (s : RemoteState) (u : User)
    (hu : getUser s uid = some u)
    (dp : List String)
    (hdp : phase1Deletables u.accessRoleIds s (buildPolicyAppMapper s.apps) = some dp)
    (uR : List String) (hur : u.accessRoleIds = some uR) :
    (prePlan uid s).teamIds = u.teamIds.getD [] ∧ (prePlan uid s).uRoles = uR ∧
      (prePlan uid s).ok = true := by
  have hdp2 : phase1Deletables (some uR) s (buildPolicyAppMapper s.apps) = some dp := by
    rw [← hur]; exact hdp
  simp [prePlan, hu, hur, hdp2]

/-- C9 amended.  In a completed dry run, for every team whose `emails` equals
exactly `[userId]` the plan contains the unlink action removing the user
from the team — but no delete action for the team entity is planned by the
sweep (the code comments "Other case will be hanlded by user deleting"; see
the counterexample for the missing delete) — and for every orphan role
(`emails == [userId]` and `teamIds ⊆` the user's team ids) the plan contains
the role deletion. -/
theorem orphan_sweep_unlink_and_role_delete (userId : String) (s : RemoteState) (u : User)
    (hu : getUser s userId = some u)
    (hok : (runMain userId true s).ok = true) :
    (∀ t ∈ s.teams, t.emails = some [userId] →
      Act.unlinkTeamUsers t.id [userId] ∈ (runMain userId true s).plan) ∧
    (∀ r ∈ s.roles, ∀ ts, r.emails = some [userId] → r.teamIds = some ts →
      ts.all (fun x => x ∈ u.teamIds.getD []) = true →
      Act.deleteRole r.id ∈ (runMain userId true s).plan) := by
  have hOk : (prePlan userId s).ok = true := by
    by_contra hc
    have hf : (prePlan userId s).ok = false := by
      cases h2 : (prePlan userId s).ok
      · rfl
      · exact absurd h2 hc
    simp [runMain, hf] at hok
  obtain ⟨u2, hu2, ⟨dp, hdp⟩, uR, hur⟩ := prePlan_ok_inv userId s hOk
  have huu : u2 = u := by
    rw [hu] at hu2
    injection hu2 with h2
    exact h2.symm
  subst huu
  obtain ⟨htI, hjR, _⟩ := prePlan_fields userId s u2 hu dp hdp uR hur
  have hrok : (runRest userId true (prePlan userId s).uRoles (prePlan userId s).teamIds
      (emitAll true [] s (prePlan userId s).acts).1
      (emitAll true [] s (prePlan userId s).acts).2).ok = true := by
    simpa [runMain, hOk] using hok
  rw [emitAll_snd_true] at hrok
  have horph := runRest_true_orphans userId (prePlan userId s).uRoles
    (prePlan userId s).teamIds (emitAll true [] s (prePlan userId s).acts).1 s hrok
  have hplan : (runMain userId true s).plan =
      (runRest userId true (prePlan userId s).uRoles (prePlan userId s).teamIds
        (emitAll true [] s (prePlan userId s).acts).1 s).plan := by
    simp only [runMain, hOk, if_true]
    rw [emitAll_snd_true]
  constructor
  · intro t ht hem
    rw [hplan]
    exact horph.1 t ht hem
  · intro r hr ts hem hts hall
    rw [hplan]
    refine horph.2 r hr ?_
    rw [htI]
    unfold orphanRoleCheck
    rw [if_pos hem, hts, Option.map_some']
    exact congrArg some hall

/-- Witness for the amended C9: one orphan team (unlinked) and one orphan
role (deleted) in a completed dry run. -/
theorem orphan_sweep_unlink_and_role_delete_w :
    (runMain "u" true ⟨[⟨"u", some [], some []⟩], [⟨"t", some ["u"], some []⟩],
        [⟨"r", some ["u"], some []⟩], [], [], []⟩).ok = true ∧
    Act.unlinkTeamUsers "t" ["u"] ∈ (runMain "u" true ⟨[⟨"u", some [], some []⟩],
        [⟨"t", some ["u"], some []⟩], [⟨"r", some ["u"], some []⟩], [], [], []⟩).plan ∧
    Act.deleteRole "r" ∈ (runMain "u" true ⟨[⟨"u", some [], some []⟩],
        [⟨"t", some ["u"], some []⟩], [⟨"r", some ["u"], some []⟩], [], [], []⟩).plan := by
  have h := orphan_sweep_unlink_and_role_delete "u"
    ⟨[⟨"u", some [], some []⟩], [⟨"t", some ["u"], some []⟩],
      [⟨"r", some ["u"], some []⟩], [], [], []⟩
    ⟨"u", some [], some []⟩ rfl rfl
  exact ⟨rfl, h.1 ⟨"t", some ["u"], some []⟩ (by decide) rfl,
    h.2 ⟨"r", some ["u"], some []⟩ (by decide) [] rfl rfl (by decide)⟩

/-! ### The app/policy mapper: registration lemmas -/

theorem alGet_alSet_self {α : Type} (m : List (String × α)) (k : String) (v : α) :
    alGet (alSet m k v) k = some v := by
  induction m with
  | nil => simp [alSet, alGet]
  | cons kv m ih =>
      by_cases h : kv.1 = k
      · simp [alSet, alGet, h]
      · simp [alSet, alGet, h, ih]

theorem alGet_alSet_ne {α : Type} (m : List (String × α)) (k k2 : String) (v : α)
    (h : k2 ≠ k) : alGet (alSet m k v) k2 = alGet m k2 := by
  have hkk : ¬ k = k2 := fun he => h he.symm
  induction m with
  | nil => simp only [alSet, alGet, if_neg hkk]
  | cons kv m ih =>
      by_cases hk : kv.1 = k
      · have hn : ¬ kv.1 = k2 := by rw [hk]; exact hkk
        simp only [alSet, if_pos hk, alGet, if_neg hkk, if_neg hn]
      · by_cases hk2 : kv.1 = k2
        · simp only [alSet, if_neg hk, alGet, if_pos hk2]
        · simp only [alSet, if_neg hk, alGet, if_neg hk2, ih]

theorem buildStep_mono (m : List (String × List String)) (b : App) (pid x : String)
    (h : x ∈ (alGet m pid).getD []) :
    x ∈ (alGet (match b.policyId with
      | some q => if q = "" then m else alSet m q ((alGet m q).getD [] ++ [b.id])
      | none => m) pid).getD [] := by
  cases hb : b.policyId with
  | none => exact h
  | some q =>
    by_cases hq : q = ""
    · simp [hq]
      exact h
    · simp only [hq, if_false]
      by_cases hpq : pid = q
      · subst hpq
        rw [alGet_alSet_self]
        exact List.mem_append_left _ h
      · rw [alGet_alSet_ne _ _ _ _ hpq]
        exact h

theorem buildFold_mono (apps : List App) :
    ∀ (m : List (String × List String)) (pid x : String),
      x ∈ (alGet m pid).getD [] →
      x ∈ (alGet (apps.foldl (fun m a =>
        match a.policyId with
        | some q => if q = "" then m else alSet m q ((alGet m q).getD [] ++ [a.id])
        | none => m) m) pid).getD [] := by
  induction apps with
  | nil => intro m pid x h; exact h
  | cons b apps ih =>
      intro m pid x h
      exact ih _ pid x (buildStep_mono m b pid x h)

theorem buildFold_complete (pid : String) (hne : pid ≠ "") (apps : List App) :
    ∀ (m : List (String × List String)), ∀ a ∈ apps, a.policyId = some pid →
      a.id ∈ (alGet (apps.foldl (fun m a =>
        match a.policyId with
        | some q => if q = "" then m else alSet m q ((alGet m q).getD [] ++ [a.id])
        | none => m) m) pid).getD [] := by
  induction apps with
  | nil => intro m a ha; cases ha
  | cons b apps ih =>
      intro m a ha hp
      simp only [List.foldl_cons]
      rcases List.mem_cons.mp ha with rfl | ha2
      · refine buildFold_mono apps _ pid a.id ?_
        have hstep : (match a.policyId with
            | some q => if q = "" then m else alSet m q ((alGet m q).getD [] ++ [a.id])
            | none => m) = alSet m pid ((alGet m pid).getD [] ++ [a.id]) := by
          rw [hp]
          simp [hne]
        rw [hstep, alGet_alSet_self]
        exact List.mem_append_right _ (List.mem_singleton.mpr rfl)
      · exact ih _ a ha2 hp

theorem buildMapper_complete (apps : List App) (a : App) (pid : String)
    (ha : a ∈ apps) (hp : a.policyId = some pid) (hne : pid ≠ "") :
    a.id ∈ (alGet (buildPolicyAppMapper apps) pid).getD [] := by
  unfold buildPolicyAppMapper
  exact buildFold_complete pid hne apps [] a ha hp

theorem buildStep_sound (m : List (String × List String)) (b : App) (pid x : String)
    (h : x ∈ (alGet (match b.policyId with
      | some q => if q = "" then m else alSet m q ((alGet m q).getD [] ++ [b.id])
      | none => m) pid).getD []) :
    x ∈ (alGet m pid).getD [] ∨ (b.id = x ∧ b.policyId = some pid ∧ pid ≠ "") := by
  split at h
  · rename_i q hb
    split at h
    · exact Or.inl h
    · rename_i hq
      by_cases hpq : pid = q
      · subst hpq
        rw [alGet_alSet_self] at h
        simp only [Option.getD_some] at h
        rcases List.mem_append.mp h with h2 | h2
        · exact Or.inl h2
        · exact Or.inr ⟨(List.mem_singleton.mp h2).symm, hb, hq⟩
      · rw [alGet_alSet_ne _ _ _ _ hpq] at h
        exact Or.inl h
  · exact Or.inl h

theorem buildFold_sound (apps : List App) :
    ∀ (m : List (String × List String)) (pid x : String),
      x ∈ (alGet (apps.foldl (fun m a =>
        match a.policyId with
        | some q => if q = "" then m else alSet m q ((alGet m q).getD [] ++ [a.id])
        | none => m) m) pid).getD [] →
      x ∈ (alGet m pid).getD [] ∨
        ∃ a ∈ apps, a.id = x ∧ a.policyId = some pid ∧ pid ≠ "" := by
  induction apps with
  | nil => intro m pid x h; exact Or.inl h
  | cons b apps ih =>
      intro m pid x h
      simp only [List.foldl_cons] at h
      rcases ih _ pid x h with hm | ⟨a, ha, hax⟩
      · rcases buildStep_sound m b pid x hm with hm2 | hb
        · exact Or.inl hm2
        · exact Or.inr ⟨b, List.mem_cons_self b apps, hb⟩
      · exact Or.inr ⟨a, List.mem_cons_of_mem b ha, hax⟩

theorem buildMapper_sound (apps : List App) (pid x : String)
    (h : x ∈ (alGet (buildPolicyAppMapper apps) pid).getD []) :
    ∃ a ∈ apps, a.id = x ∧ a.policyId = some pid ∧ pid ≠ "" := by
  unfold buildPolicyAppMapper at h
  rcases buildFold_sound apps [] pid x h with hm | hr
  · simp [alGet] at hm
  · exact hr

theorem nodup_map_inj {α β : Type} [DecidableEq β] (f : α → β) (l : List α)
    (hnd : (l.map f).Nodup) :
    ∀ a ∈ l, ∀ b ∈ l, f a = f b → a = b := by
  induction l with
  | nil => intro a ha; cases ha
  | cons c l ih =>
      intro a ha b hb hf
      simp only [List.map_cons, List.nodup_cons] at hnd
      rcases List.mem_cons.mp ha with rfl | ha2
      · rcases List.mem_cons.mp hb with rfl | hb2
        · rfl
        · exact absurd (hf ▸ List.mem_map_of_mem f hb2) hnd.1
      · rcases List.mem_cons.mp hb with rfl | hb2
        · exact absurd (hf ▸ List.mem_map_of_mem f ha2) (by simpa using hnd.1)
        · exact ih hnd.2 a ha2 b hb2 hf

/-! ### Claim C10: applications without a policy are never deleted -/

theorem rest4_no_delApp (uid : String) (d : Bool) (tI : List String)
    (pr : List Act × RemoteState) (x : String)
    (h : Act.deleteApp x ∈ (rest4 uid d tI pr).plan) : Act.deleteApp x ∈ pr.1 := by
  unfold rest4 at h
  cases hO : orphanRoles uid tI pr.2.roles with
  | none => rw [hO] at h; exact h
  | some ors =>
    rw [hO] at h
    simp only [emitAll_fst] at h
    rcases List.mem_append.mp h with hb | hb
    · exact hb
    · rcases List.mem_append.mp hb with hc | hc
      · obtain ⟨t, _, heq⟩ := List.mem_map.mp hc
        cases heq
      · simp at hc

theorem rest3_no_delApp (uid : String) (d : Bool) (tI : List String)
    (pr : List Act × RemoteState) (x : String)
    (h : Act.deleteApp x ∈ (rest3 uid d tI pr).plan) : Act.deleteApp x ∈ pr.1 := by
  unfold rest3 at h
  have h4 := rest4_no_delApp uid d tI _ x h
  rw [emitAll_fst] at h4
  rcases List.mem_append.mp h4 with hb | hb
  · exact hb
  · obtain ⟨t, _, heq⟩ := List.mem_map.mp hb
    cases heq

theorem rest2_no_delApp (uid : String) (d : Bool) (uR tI : List String)
    (pr : List Act × RemoteState) (x : String)
    (h : Act.deleteApp x ∈ (rest2 uid d uR tI pr).plan) : Act.deleteApp x ∈ pr.1 := by
  unfold rest2 at h
  cases hS : scan4 uR pr.2.policies [] [] with
  | none => rw [hS] at h; exact h
  | some ud =>
    rw [hS] at h
    have h3 := rest3_no_delApp uid d tI _ x h
    rw [emitAll_fst] at h3
    rcases List.mem_append.mp h3 with hb | hb
    · exact hb
    · rcases List.mem_append.mp hb with hc | hc
      · obtain ⟨q, rs, heq⟩ := mem_updateActions _ _ _ hc
        rw [heq] at hc
        obtain ⟨kv, _, _⟩ := List.mem_filterMap.mp hc
        cases heq
      · obtain ⟨q, _, heq⟩ := List.mem_map.mp hc
        cases heq

theorem runRest_no_delApp (uid : String) (d : Bool) (uR tI : List String)
    (plan0 : List Act) (s : RemoteState) (x : String)
    (h : Act.deleteApp x ∈ (runRest uid d uR tI plan0 s).plan) :
    Act.deleteApp x ∈ plan0 := by
  unfold runRest at h
  cases hT : teamsDeletable uid uR s tI with
  | none => rw [hT] at h; exact h
  | some dts =>
    rw [hT] at h
    cases hR : rolesDeletable uid tI s uR with
    | none => rw [hR] at h; exact h
    | some drs =>
      rw [hR] at h
      have h2 := rest2_no_delApp uid d uR tI _ x h
      rw [emitAll_fst] at h2
      rcases List.mem_append.mp h2 with hb | hb
      · exact hb
      · rcases List.mem_append.mp hb with hc | hc
        · obtain ⟨t, _, heq⟩ := List.mem_map.mp hc
          cases heq
        · obtain ⟨t, _, heq⟩ := List.mem_map.mp hc
          cases heq

theorem prePlan_delApp_source (uid : String) (s : RemoteState) (x : String)
    (h : Act.deleteApp x ∈ (prePlan uid s).acts) :
    ∃ pid, x ∈ (alGet (buildPolicyAppMapper s.apps) pid).getD [] := by
  simp only [prePlan] at h
  split at h
  · simp at h
  · split at h
    · simp at h
    · split at h
      · simp only [List.mem_append, List.mem_map, List.mem_flatten] at h
        rcases h with (h1 | h2) | h3
        · obtain ⟨a, hA, ha⟩ := h1
          obtain ⟨l, hEx, hal⟩ := hA
          obtain ⟨pid, hm, hl⟩ := hEx
          injection ha with he
          subst he
          exact ⟨pid, hl ▸ hal⟩
        · obtain ⟨a, hm, ha⟩ := h2
          cases ha
        · obtain ⟨a, hm, ha⟩ := h3
          cases ha
      · simp only [List.mem_append, List.mem_map, List.mem_flatten,
          List.mem_flatMap] at h
        rcases h with ((h1 | h2) | h3) | h4
        · obtain ⟨a, hA, ha⟩ := h1
          obtain ⟨l, hEx, hal⟩ := hA
          obtain ⟨pid, hm, hl⟩ := hEx
          injection ha with he
          subst he
          exact ⟨pid, hl ▸ hal⟩
        · obtain ⟨a, hm, ha⟩ := h2
          cases ha
        · obtain ⟨a, hm, ha⟩ := h3
          cases ha
        · obtain ⟨a, hm, ha⟩ := h4
          simp only [List.mem_cons] at ha
          rcases ha with ha | ha | ha
          · cases ha
          · cases ha
          · cases ha

/-- C10.  An application whose `policyId` is absent or empty is never
deleted: the only app deletions the run ever issues come from the phase-1
deletable-policy grouping (purge-user.py lines 74-75), and only apps with a
truthy `policyId` are ever registered there (line 48's `bool(policyId)`
test).  Stated for stores whose app ids are unique (entities are identified
by their id, spec §3). -/
theorem policyless_app_untouched (userId : String) (d : Bool) (s : RemoteState)
    (app : App) (happ : app ∈ s.apps)
    (hno : app.policyId = none ∨ app.policyId = some "")
    (hnd : (s.apps.map App.id).Nodup) :
    Act.deleteApp app.id ∉ (runMain userId d s).plan := by
  intro hmem
  have hpre : Act.deleteApp app.id ∈ (prePlan userId s).acts := by
    simp only [runMain] at hmem
    cases hOk : (prePlan userId s).ok with
    | false =>
        rw [hOk] at hmem
        simp only [Bool.false_eq_true, if_false] at hmem
        rw [emitAll_fst, List.nil_append] at hmem
        exact hmem
    | true =>
        rw [hOk] at hmem
        simp only [if_true] at hmem
        have := runRest_no_delApp userId d (prePlan userId s).uRoles
          (prePlan userId s).teamIds _ _ app.id hmem
        rw [emitAll_fst, List.nil_append] at this
        exact this
  obtain ⟨pid, hx⟩ := prePlan_delApp_source userId s app.id hpre
  obtain ⟨b, hb, hbid, hbp, hbne⟩ := buildMapper_sound s.apps pid app.id hx
  have hba : b = app := nodup_map_inj App.id s.apps hnd b hb app happ (by rw [hbid])
  subst hba
  rcases hno with hno | hno
  · rw [hno] at hbp
    cases hbp
  · rw [hno] at hbp
    injection hbp with he
    exact hbne he.symm

/-- Witness for C10: a store with one policy-less app; its deletion never
appears in the plan. -/
theorem policyless_app_untouched_w :
    Act.deleteApp "a0" ∉ (runMain "u" true ⟨[⟨"u", some [], some []⟩], [], [], [],
      [⟨"a0", none⟩], []⟩).plan := by
  have h := policyless_app_untouched "u" true
    ⟨[⟨"u", some [], some []⟩], [], [], [], [⟨"a0", none⟩], []⟩
    ⟨"a0", none⟩ (by decide) (Or.inl rfl) (by decide)
  exact h

/-! ### Claim C5: applications are deleted before their policy -/

theorem getPolicy_mem_id (s : RemoteState) (x : String) (p : Policy)
    (h : getPolicy s x = some p) : p ∈ s.policies ∧ p.id = x := by
  refine ⟨List.mem_of_find?_eq_some h, ?_⟩
  have := List.find?_some h
  simpa using this

theorem alGet_mem {α : Type} (m : List (String × α)) (k : String) (v : α)
    (h : alGet m k = some v) : (k, v) ∈ m := by
  induction m with
  | nil => cases h
  | cons kv m ih =>
      simp only [alGet] at h
      by_cases hk : kv.1 = k
      · rw [if_pos hk] at h
        injection h with hv
        subst hv
        have hkv : (k, kv.2) = kv := by rw [← hk, Prod.mk.eta]
        rw [hkv]
        exact List.mem_cons_self kv m
      · rw [if_neg hk] at h
        exact List.mem_cons_of_mem kv (ih h)

theorem mem_alSet {α : Type} (m : List (String × α)) (k : String) (v : α) :
    ∀ kv ∈ alSet m k v, kv ∈ m ∨ kv = (k, v) := by
  induction m with
  | nil =>
      intro kv h
      simp only [alSet] at h
      exact Or.inr (List.mem_singleton.mp h)
  | cons kv0 m ih =>
      intro kv h
      simp only [alSet] at h
      by_cases hk : kv0.1 = k
      · rw [if_pos hk] at h
        rcases List.mem_cons.mp h with rfl | h2
        · exact Or.inr rfl
        · exact Or.inl (List.mem_cons_of_mem kv0 h2)
      · rw [if_neg hk] at h
        rcases List.mem_cons.mp h with rfl | h2
        · exact Or.inl (List.mem_cons_self kv m)
        · rcases ih kv h2 with h3 | h3
          · exact Or.inl (List.mem_cons_of_mem kv0 h3)
          · exact Or.inr h3

theorem buildMapper_key_ne (apps : List App) :
    ∀ (m : List (String × List String)), (∀ kv ∈ m, kv.1 ≠ "") →
      ∀ kv ∈ apps.foldl (fun m a =>
        match a.policyId with
        | some q => if q = "" then m else alSet m q ((alGet m q).getD [] ++ [a.id])
        | none => m) m, kv.1 ≠ "" := by
  induction apps with
  | nil => intro m hm kv h; exact hm kv h
  | cons b apps ih =>
      intro m hm kv h
      simp only [List.foldl_cons] at h
      refine ih _ ?_ kv h
      intro kv2 h2
      split at h2
      · rename_i q hb
        split at h2
        · exact hm kv2 h2
        · rename_i hq
          rcases mem_alSet m q _ kv2 h2 with h3 | h3
          · exact hm kv2 h3
          · rw [h3]
            exact hq
      · exact hm kv2 h2

theorem phase1Deletables_entries (uOpt : Option (List String)) (s0 : RemoteState)
    (m : List (String × List String)) :
    ∀ ds, phase1Deletables uOpt s0 m = some ds →
      ∀ kv ∈ m, ∃ p b, getPolicy s0 kv.1 = some p ∧ policyDeletable uOpt p = some b ∧
        (b = true → kv.1 ∈ ds) := by
  induction m with
  | nil => intro ds _ kv h; cases h
  | cons kv0 m ih =>
      intro ds h kv hkv
      simp only [phase1Deletables] at h
      cases hg : getPolicy s0 kv0.1 with
      | none => rw [hg] at h; cases h
      | some p =>
        rw [hg, Option.some_bind] at h
        cases hd : policyDeletable uOpt p with
        | none => rw [hd] at h; cases h
        | some b =>
          rw [hd, Option.some_bind] at h
          cases hrec : phase1Deletables uOpt s0 m with
          | none => rw [hrec] at h; cases h
          | some ds2 =>
            rw [hrec, Option.map_some'] at h
            injection h with h
            subst h
            rcases List.mem_cons.mp hkv with rfl | hkv2
            · refine ⟨p, b, hg, hd, ?_⟩
              intro hb
              subst hb
              simp only [if_true]
              exact List.mem_cons_self kv.1 ds2
            · obtain ⟨p2, b2, hg2, hd2, himp⟩ := ih ds2 hrec kv hkv2
              refine ⟨p2, b2, hg2, hd2, ?_⟩
              intro hb
              cases b with
              | true => exact List.mem_cons_of_mem kv0.1 (himp hb)
              | false => simpa using himp hb

theorem phase1Deletables_sound (uOpt : Option (List String)) (s0 : RemoteState)
    (m : List (String × List String)) :
    ∀ ds, phase1Deletables uOpt s0 m = some ds →
      ∀ pid ∈ ds, ∃ kv ∈ m, kv.1 = pid := by
  induction m with
  | nil =>
      intro ds h pid hp
      simp only [phase1Deletables, Option.some_inj] at h
      subst h
      cases hp
  | cons kv0 m ih =>
      intro ds h pid hp
      simp only [phase1Deletables] at h
      cases hg : getPolicy s0 kv0.1 with
      | none => rw [hg] at h; cases h
      | some p =>
        rw [hg, Option.some_bind] at h
        cases hd : policyDeletable uOpt p with
        | none => rw [hd] at h; cases h
        | some b =>
          rw [hd, Option.some_bind] at h
          cases hrec : phase1Deletables uOpt s0 m with
          | none => rw [hrec] at h; cases h
          | some ds2 =>
            rw [hrec, Option.map_some'] at h
            injection h with h
            subst h
            cases b with
            | true =>
              simp only [if_true] at hp
              rcases List.mem_cons.mp hp with rfl | hp2
              · exact ⟨kv0, List.mem_cons_self kv0 m, rfl⟩
              · obtain ⟨kv2, hm2, hid⟩ := ih ds2 hrec pid hp2
                exact ⟨kv2, List.mem_cons_of_mem kv0 hm2, hid⟩
            | false =>
              simp only [Bool.false_eq_true, if_false] at hp
              obtain ⟨kv2, hm2, hid⟩ := ih ds2 hrec pid hp
              exact ⟨kv2, List.mem_cons_of_mem kv0 hm2, hid⟩

theorem scanRuleFields_flatten (rules : List Rule) :
    ∀ ls, scanRuleFields rules = some ls →
      flattenRuleRoleIds rules = ls.flatten.map some := by
  induction rules with
  | nil =>
      intro ls h
      simp only [scanRuleFields, Option.some_inj] at h
      subst h
      rfl
  | cons r rs ih =>
      intro ls h
      simp only [scanRuleFields] at h
      cases hr : r.accessRoleIds with
      | none => rw [hr] at h; cases h
      | some l =>
        rw [hr, Option.some_bind] at h
        cases hrec : scanRuleFields rs with
        | none => rw [hrec] at h; cases h
        | some ls2 =>
          rw [hrec, Option.map_some'] at h
          injection h with h
          subst h
          have hcons : flattenRuleRoleIds (r :: rs) =
              (match r.accessRoleIds with
               | none => [none]
               | some l => l.map some) ++ flattenRuleRoleIds rs := rfl
          rw [hcons, hr, ih ls2 hrec]
          simp

theorem policyDeletable4_imp (uR : List String) (p : Policy)
    (h : policyDeletable4 uR p = some true) :
    policyDeletable (some uR) p = some true := by
  unfold policyDeletable4 at h
  cases hr : p.rules with
  | none => rw [hr] at h; cases h
  | some rules =>
    rw [hr, Option.some_bind] at h
    cases hs : scanRuleFields rules with
    | none => rw [hs] at h; cases h
    | some ls =>
      rw [hs, Option.map_some'] at h
      injection h with h
      have hall : ls.flatten.all (fun x => x ∈ uR) = true := by
        by_cases hc : ls.flatten.all (fun x => x ∈ uR) = true
        · exact hc
        · rw [if_neg (by simpa using hc)] at h
          by_cases hl : ls.flatten.length = 0
          · have : ls.flatten = [] := List.length_eq_zero.mp hl
            rw [this] at hc
            simp at hc
          · rw [if_neg hl] at h
            cases h
      unfold policyDeletable
      rw [hr, Option.some_bind, Option.map_some', Option.some_inj]
      rw [scanRuleFields_flatten rules ls hs]
      rw [List.all_eq_true] at hall ⊢
      intro x hx
      obtain ⟨y, hy, rfl⟩ := List.mem_map.mp hx
      simpa using hall y hy

theorem scan4_sound (uR : List String) (ps : List Policy) :
    ∀ upds dels ud, scan4 uR ps upds dels = some ud →
      ∀ pid ∈ ud.2, pid ∈ dels ∨
        ∃ p ∈ ps, p.id = pid ∧ policyDeletable4 uR p = some true := by
  induction ps with
  | nil =>
      intro upds dels ud h pid hp
      simp only [scan4, Option.some_inj] at h
      subst h
      exact Or.inl hp
  | cons p ps ih =>
      intro upds dels ud h pid hp
      simp only [scan4] at h
      cases hd : policyDeletable4 uR p with
      | none => rw [hd] at h; cases h
      | some b =>
        rw [hd, Option.some_bind] at h
        rcases ih _ _ ud h pid hp with hin | ⟨p2, hp2, hrest⟩
        · cases b with
          | true =>
            simp only [if_true] at hin
            by_cases hmem : p.id ∈ dels
            · rw [if_pos hmem] at hin
              exact Or.inl hin
            · rw [if_neg hmem] at hin
              rcases List.mem_append.mp hin with hin2 | hin2
              · exact Or.inl hin2
              · refine Or.inr ⟨p, List.mem_cons_self p ps, ?_, hd⟩
                exact (List.mem_singleton.mp hin2).symm
          | false =>
            simp only [Bool.false_eq_true, if_false] at hin
            exact Or.inl hin
        · exact Or.inr ⟨p2, List.mem_cons_of_mem p hp2, hrest⟩

/-- Whether a call's effect on the store can change the policies collection. -/
def touchesPolicies : Act → Bool
  | .deletePolicy _ => true
  | .updatePolicy _ _ => true
  | _ => false

theorem mutate_policies_eq (d : Bool) (s : RemoteState) (a : Act)
    (h : touchesPolicies a = false) : (mutate d s a).policies = s.policies := by
  unfold mutate
  by_cases hd : d = true
  · rw [if_pos hd]
  · rw [if_neg hd]
    by_cases hf : actionTarget a ∈ s.failing
    · rw [if_pos hf]
    · rw [if_neg hf]
      cases a with
      | deletePolicy i => simp [touchesPolicies] at h
      | updatePolicy i rs => simp [touchesPolicies] at h
      | deleteApp i => rfl
      | unlinkTeamUsers t us => rfl
      | unlinkRoleUsers r us => rfl
      | unlinkRoleTeams r ts => rfl
      | deleteTeam i => rfl
      | deleteRole i => rfl
      | deleteUser i => rfl

theorem emitAll_policies_eq (d : Bool) (as : List Act) :
    ∀ acc s, (∀ a ∈ as, touchesPolicies a = false) →
      (emitAll d acc s as).2.policies = s.policies := by
  induction as with
  | nil => intro acc s _; rfl
  | cons a as ih =>
      intro acc s hall
      simp only [emitAll]
      rw [ih _ _ (fun b hb => hall b (List.mem_cons_of_mem a hb))]
      exact mutate_policies_eq d s a (hall a (List.mem_cons_self a as))

theorem mutate_policies_subset (d : Bool) (s : RemoteState) (a : Act)
    (h : ∀ q rs, a ≠ Act.updatePolicy q rs) :
    ∀ p ∈ (mutate d s a).policies, p ∈ s.policies := by
  intro p hp
  unfold mutate at hp
  by_cases hd : d = true
  · rw [if_pos hd] at hp; exact hp
  · rw [if_neg hd] at hp
    by_cases hf : actionTarget a ∈ s.failing
    · rw [if_pos hf] at hp; exact hp
    · rw [if_neg hf] at hp
      cases a with
      | updatePolicy i rs => exact absurd rfl (h i rs)
      | deletePolicy i => exact List.mem_of_mem_filter hp
      | deleteApp i => exact hp
      | unlinkTeamUsers t us => exact hp
      | unlinkRoleUsers r us => exact hp
      | unlinkRoleTeams r ts => exact hp
      | deleteTeam i => exact hp
      | deleteRole i => exact hp
      | deleteUser i => exact hp

theorem emitAll_policies_subset (d : Bool) (as : List Act) :
    ∀ acc s, (∀ a ∈ as, ∀ q rs, a ≠ Act.updatePolicy q rs) →
      ∀ p ∈ (emitAll d acc s as).2.policies, p ∈ s.policies := by
  induction as with
  | nil => intro acc s _ p hp; exact hp
  | cons a as ih =>
      intro acc s hall p hp
      simp only [emitAll] at hp
      have := ih _ _ (fun b hb => hall b (List.mem_cons_of_mem a hb)) p hp
      exact mutate_policies_subset d s a (hall a (List.mem_cons_self a as)) p this

theorem prePlan_acts_no_updPolicy (uid : String) (s : RemoteState) :
    ∀ a ∈ (prePlan uid s).acts, ∀ q rs, a ≠ Act.updatePolicy q rs := by
  intro a ha q rs
  rintro rfl
  simp only [prePlan] at ha
  split at ha
  · simp at ha
  · split at ha
    · simp at ha
    · split at ha
      · simp [List.mem_flatten] at ha
      · simp [List.mem_flatten, List.mem_flatMap] at ha

theorem rest4_delPolicy_source (uid : String) (d : Bool) (tI : List String)
    (pr : List Act × RemoteState) (pid : String)
    (h : Act.deletePolicy pid ∈ (rest4 uid d tI pr).plan) :
    Act.deletePolicy pid ∈ pr.1 := by
  unfold rest4 at h
  cases hO : orphanRoles uid tI pr.2.roles with
  | none => rw [hO] at h; exact h
  | some ors =>
    rw [hO] at h
    simp only [emitAll_fst] at h
    rcases List.mem_append.mp h with hb | hb
    · exact hb
    · rcases List.mem_append.mp hb with hc | hc
      · obtain ⟨t, _, heq⟩ := List.mem_map.mp hc
        cases heq
      · simp at hc

theorem rest3_delPolicy_source (uid : String) (d : Bool) (tI : List String)
    (pr : List Act × RemoteState) (pid : String)
    (h : Act.deletePolicy pid ∈ (rest3 uid d tI pr).plan) :
    Act.deletePolicy pid ∈ pr.1 := by
  unfold rest3 at h
  have h4 := rest4_delPolicy_source uid d tI _ pid h
  rw [emitAll_fst] at h4
  rcases List.mem_append.mp h4 with hb | hb
  · exact hb
  · obtain ⟨t, _, heq⟩ := List.mem_map.mp hb
    cases heq

theorem rest2_delPolicy_source (uid : String) (d : Bool) (uR tI : List String)
    (pr : List Act × RemoteState) (pid : String)
    (h : Act.deletePolicy pid ∈ (rest2 uid d uR tI pr).plan) :
    Act.deletePolicy pid ∈ pr.1 ∨
      ∃ p ∈ pr.2.policies, p.id = pid ∧ policyDeletable4 uR p = some true := by
  unfold rest2 at h
  cases hS : scan4 uR pr.2.policies [] [] with
  | none => rw [hS] at h; exact Or.inl h
  | some ud =>
    rw [hS] at h
    have h3 := rest3_delPolicy_source uid d tI _ pid h
    rw [emitAll_fst] at h3
    rcases List.mem_append.mp h3 with hb | hb
    · exact Or.inl hb
    · rcases List.mem_append.mp hb with hc | hc
      · obtain ⟨q, rs, heq⟩ := mem_updateActions _ _ _ hc
        rw [heq] at hc
        cases heq
      · obtain ⟨q, hq, heq⟩ := List.mem_map.mp hc
        have hqp : q = pid := by injection heq
        subst hqp
        rcases scan4_sound uR pr.2.policies [] [] ud hS q hq with hfalse | hsrc
        · cases hfalse
        · exact Or.inr hsrc

theorem runRest_delPolicy_source (uid : String) (d : Bool) (uR tI : List String)
    (plan0 : List Act) (s : RemoteState) (pid : String)
    (h : Act.deletePolicy pid ∈ (runRest uid d uR tI plan0 s).plan) :
    Act.deletePolicy pid ∈ plan0 ∨
      ∃ p ∈ s.policies, p.id = pid ∧ policyDeletable4 uR p = some true := by
  unfold runRest at h
  cases hT : teamsDeletable uid uR s tI with
  | none => rw [hT] at h; exact Or.inl h
  | some dts =>
    rw [hT] at h
    cases hR : rolesDeletable uid tI s uR with
    | none => rw [hR] at h; exact Or.inl h
    | some drs =>
      rw [hR] at h
      rcases rest2_delPolicy_source uid d uR tI _ pid h with hb | ⟨p, hp, hrest⟩
      · rw [emitAll_fst] at hb
        rcases List.mem_append.mp hb with hc | hc
        · exact Or.inl hc
        · rcases List.mem_append.mp hc with he | he
          · obtain ⟨t, _, heq⟩ := List.mem_map.mp he
            cases heq
          · obtain ⟨t, _, heq⟩ := List.mem_map.mp he
            cases heq
      · refine Or.inr ⟨p, ?_, hrest⟩
        rw [emitAll_policies_eq d _ _ _ ?_] at hp
        · exact hp
        · intro a ha
          rcases List.mem_append.mp ha with hc | hc
          · obtain ⟨t, _, rfl⟩ := List.mem_map.mp hc
            rfl
          · obtain ⟨t, _, rfl⟩ := List.mem_map.mp hc
            rfl

theorem prePlan_decomp (uid : String) (s : RemoteState) :
    ((prePlan uid s).acts = [] ∧ (prePlan uid s).ok = false) ∨
    ∃ uOpt dpids tail,
      phase1Deletables uOpt s (buildPolicyAppMapper s.apps) = some dpids ∧
      (prePlan uid s).acts =
        ((dpids.map (fun q => (alGet (buildPolicyAppMapper s.apps) q).getD [])).flatten).map
          Act.deleteApp ++ dpids.map Act.deletePolicy ++ tail ∧
      (∀ a ∈ tail, (∀ y, a ≠ Act.deleteApp y) ∧ ∀ y, a ≠ Act.deletePolicy y) ∧
      ((prePlan uid s).ok = true → uOpt = some (prePlan uid s).uRoles) := by
  simp only [prePlan]
  split
  · exact Or.inl ⟨rfl, rfl⟩
  · rename_i user hu
    split
    · exact Or.inl ⟨rfl, rfl⟩
    · rename_i dpids hdp
      split
      · rename_i hur
        refine Or.inr ⟨user.accessRoleIds, dpids,
          (user.teamIds.getD []).map (fun t => Act.unlinkTeamUsers t [uid]),
          hdp, rfl, ?_, ?_⟩
        · intro a ha
          obtain ⟨t, _, rfl⟩ := List.mem_map.mp ha
          exact ⟨(fun y hy => by cases hy), (fun y hy => by cases hy)⟩
        · intro hcontra
          simp at hcontra
      · rename_i uR hur
        refine Or.inr ⟨some uR, dpids,
          (user.teamIds.getD []).map (fun t => Act.unlinkTeamUsers t [uid]) ++
            uR.flatMap (fun r => [Act.unlinkRoleUsers r [uid],
              Act.unlinkRoleTeams r (user.teamIds.getD [])]),
          ?_, ?_, ?_, fun _ => rfl⟩
        · rw [← hur]; exact hdp
        · simp [List.append_assoc]
        · intro a ha
          rcases List.mem_append.mp ha with hb | hb
          · obtain ⟨t, _, rfl⟩ := List.mem_map.mp hb
            exact ⟨(fun y hy => by cases hy), (fun y hy => by cases hy)⟩
          · obtain ⟨r, _, hr⟩ := List.mem_flatMap.mp hb
            simp only [List.mem_cons] at hr
            rcases hr with rfl | hr2
            · exact ⟨(fun y hy => by cases hy), (fun y hy => by cases hy)⟩
            · rcases hr2 with rfl | hr3
              · exact ⟨(fun y hy => by cases hy), (fun y hy => by cases hy)⟩
              · cases hr3

/-- C5.  Every `deletePolicy` action anywhere in the plan — the phase-1 block
or the phase-4 consistency sweep — is preceded by a `deleteApp` action for
every application that references that policy: phase 1 groups every app with
a truthy `policyId` under its policy, deletes the apps of the deletable
policies first (lines 74-79), and a policy the phase-4 sweep deletes has
unchanged rules since the pre-mutation snapshot, so it was already judged
deletable in phase 1 and its apps were deleted in the very first block.
Stated for stores whose policy ids are unique and nonempty (entities are
identified by their opaque id, spec §3). -/
theorem app_deleted_before_policy (userId : String) (d : Bool) (s : RemoteState)
    (hnd : (s.policies.map Policy.id).Nodup)
    (hner : ∀ p ∈ s.policies, p.id ≠ "")
    (i : Nat) (pid : String)
    (hi : (runMain userId d s).plan[i]? = some (Act.deletePolicy pid))
    (app : App) (happ : app ∈ s.apps) (hap : app.policyId = some pid) :
    ∃ j, j < i ∧ (runMain userId d s).plan[j]? = some (Act.deleteApp app.id) := by
  have hmem : Act.deletePolicy pid ∈ (runMain userId d s).plan :=
    List.mem_iff_getElem?.mpr ⟨i, hi⟩
  rcases prePlan_decomp userId s with ⟨hempty, hokf⟩ |
    ⟨uOpt, dpids, tail, hph, hacts, htail, hoku⟩
  · have hplan : (runMain userId d s).plan = [] := by
      simp only [runMain]
      rw [hokf]
      simp only [Bool.false_eq_true, if_false]
      rw [emitAll_fst, List.nil_append, hempty]
    rw [hplan] at hi
    cases hi
  · have hpid : pid ∈ dpids := by
      cases hOk : (prePlan userId s).ok with
      | false =>
        have hplan : (runMain userId d s).plan = (prePlan userId s).acts := by
          simp only [runMain]
          rw [hOk]
          simp only [Bool.false_eq_true, if_false]
          rw [emitAll_fst, List.nil_append]
        rw [hplan, hacts] at hmem
        rcases List.mem_append.mp hmem with hb | hb
        · rcases List.mem_append.mp hb with hc | hc
          · obtain ⟨y, _, heq⟩ := List.mem_map.mp hc
            cases heq
          · obtain ⟨q, hq, heq⟩ := List.mem_map.mp hc
            have hq2 : q = pid := by injection heq
            subst hq2
            exact hq
        · exact absurd rfl ((htail _ hb).2 pid)
      | true =>
        have hplan : (runMain userId d s).plan =
            (runRest userId d (prePlan userId s).uRoles (prePlan userId s).teamIds
              (prePlan userId s).acts (emitAll d [] s (prePlan userId s).acts).2).plan := by
          simp only [runMain]
          rw [hOk]
          simp only [if_true]
          rw [emitAll_fst, List.nil_append]
        rw [hplan] at hmem
        rcases runRest_delPolicy_source userId d _ _ _ _ pid hmem with hin0 |
          ⟨p4, hp4, hid4, hdel4⟩
        · rw [hacts] at hin0
          rcases List.mem_append.mp hin0 with hb | hb
          · rcases List.mem_append.mp hb with hc | hc
            · obtain ⟨y, _, heq⟩ := List.mem_map.mp hc
              cases heq
            · obtain ⟨q, hq, heq⟩ := List.mem_map.mp hc
              have hq2 : q = pid := by injection heq
              subst hq2
              exact hq
          · exact absurd rfl ((htail _ hb).2 pid)
        · have hp4s : p4 ∈ s.policies := by
            refine emitAll_policies_subset d (prePlan userId s).acts [] s ?_ p4 hp4
            exact prePlan_acts_no_updPolicy userId s
          have hpidne : pid ≠ "" := by
            rw [← hid4]
            exact hner p4 hp4s
          have hreg := buildMapper_complete s.apps app pid happ hap hpidne
          have hget : ∃ l, alGet (buildPolicyAppMapper s.apps) pid = some l ∧ app.id ∈ l := by
            cases hG : alGet (buildPolicyAppMapper s.apps) pid with
            | none => rw [hG] at hreg; cases hreg
            | some l =>
                rw [hG] at hreg
                exact ⟨l, rfl, by simpa using hreg⟩
          obtain ⟨l, hG, hal⟩ := hget
          have hkv : (pid, l) ∈ buildPolicyAppMapper s.apps := alGet_mem _ _ _ hG
          obtain ⟨p1, b, hg1, hd1, himp⟩ :=
            phase1Deletables_entries uOpt s _ dpids hph (pid, l) hkv
          obtain ⟨hp1s, hp1id⟩ := getPolicy_mem_id s pid p1 hg1
          have hp14 : p1 = p4 :=
            nodup_map_inj Policy.id s.policies hnd p1 hp1s p4 hp4s (by rw [hp1id, hid4])
          have huo : uOpt = some (prePlan userId s).uRoles := hoku hOk
          have hdel1 : policyDeletable uOpt p1 = some true := by
            rw [huo, hp14]
            exact policyDeletable4_imp _ _ hdel4
          have hbt : b = true := by
            rw [hd1] at hdel1
            injection hdel1
          exact himp hbt
    have hpidne2 : pid ≠ "" := by
      obtain ⟨kv, hkvm, hkvid⟩ := phase1Deletables_sound uOpt s _ dpids hph pid hpid
      have hkvne : kv.1 ≠ "" := by
        refine buildMapper_key_ne s.apps [] ?_ kv ?_
        · intro kv2 h2
          cases h2
        · unfold buildPolicyAppMapper at hkvm
          exact hkvm
      rw [← hkvid]
      exact hkvne
    have hreg2 := buildMapper_complete s.apps app pid happ hap hpidne2
    have haid : app.id ∈
        (dpids.map (fun q => (alGet (buildPolicyAppMapper s.apps) q).getD [])).flatten := by
      refine List.mem_flatten.mpr
        ⟨(alGet (buildPolicyAppMapper s.apps) pid).getD [], ?_, hreg2⟩
      exact List.mem_map.mpr ⟨pid, hpid, rfl⟩
    have hAmem : Act.deleteApp app.id ∈
        ((dpids.map (fun q => (alGet (buildPolicyAppMapper s.apps) q).getD [])).flatten).map
          Act.deleteApp :=
      List.mem_map.mpr ⟨app.id, haid, rfl⟩
    have hplanrest : ∃ rest, (runMain userId d s).plan =
        ((dpids.map (fun q => (alGet (buildPolicyAppMapper s.apps) q).getD [])).flatten).map
          Act.deleteApp ++ rest := by
      cases hOk : (prePlan userId s).ok with
      | false =>
        refine ⟨dpids.map Act.deletePolicy ++ tail, ?_⟩
        simp only [runMain]
        rw [hOk]
        simp only [Bool.false_eq_true, if_false]
        rw [emitAll_fst, List.nil_append, hacts, List.append_assoc]
      | true =>
        obtain ⟨r2, hr2⟩ := runRest_plan_mono userId d (prePlan userId s).uRoles
          (prePlan userId s).teamIds (prePlan userId s).acts
          (emitAll d [] s (prePlan userId s).acts).2
        refine ⟨dpids.map Act.deletePolicy ++ tail ++ r2, ?_⟩
        simp only [runMain]
        rw [hOk]
        simp only [if_true]
        rw [emitAll_fst, List.nil_append, hr2, hacts]
        simp [List.append_assoc]
    obtain ⟨rest, hP⟩ := hplanrest
    obtain ⟨j, hj⟩ := List.mem_iff_getElem?.mp hAmem
    have hjlt : j <
        (((dpids.map (fun q => (alGet (buildPolicyAppMapper s.apps) q).getD [])).flatten).map
          Act.deleteApp).length := by
      obtain ⟨hlt, _⟩ := List.getElem?_eq_some.mp hj
      exact hlt
    have hq : (runMain userId d s).plan[j]? = some (Act.deleteApp app.id) := by
      rw [hP, List.getElem?_append_left hjlt]
      exact hj
    have hige :
        (((dpids.map (fun q => (alGet (buildPolicyAppMapper s.apps) q).getD [])).flatten).map
          Act.deleteApp).length ≤ i := by
      by_contra hlt2
      push_neg at hlt2
      have hieq : (runMain userId d s).plan[i]? =
          (((dpids.map (fun q => (alGet (buildPolicyAppMapper s.apps) q).getD [])).flatten).map
            Act.deleteApp)[i]? := by
        rw [hP, List.getElem?_append_left hlt2]
      rw [hi] at hieq
      have hmem2 : Act.deletePolicy pid ∈
          (((dpids.map (fun q => (alGet (buildPolicyAppMapper s.apps) q).getD [])).flatten).map
            Act.deleteApp) :=
        List.mem_iff_getElem?.mpr ⟨i, hieq.symm⟩
      obtain ⟨y, _, heq⟩ := List.mem_map.mp hmem2
      cases heq
    exact ⟨j, lt_of_lt_of_le hjlt hige, hq⟩

/-- Witness for C5: one app under a deletable policy; the policy deletion at
index 1 of the dry plan is preceded by the app deletion. -/
theorem app_deleted_before_policy_w :
    ((runMain "u" true ⟨[⟨"u", some [], some []⟩], [], [], [⟨"p", some []⟩],
        [⟨"a", some "p"⟩], []⟩).plan[1]? = some (Act.deletePolicy "p")) ∧
    ∃ j, j < 1 ∧ (runMain "u" true ⟨[⟨"u", some [], some []⟩], [], [], [⟨"p", some []⟩],
        [⟨"a", some "p"⟩], []⟩).plan[j]? = some (Act.deleteApp "a") :=
  ⟨rfl, app_deleted_before_policy "u" true
    ⟨[⟨"u", some [], some []⟩], [], [], [⟨"p", some []⟩], [⟨"a", some "p"⟩], []⟩
    (by decide) (by decide) 1 "p" rfl ⟨"a", some "p"⟩ (by decide) rfl⟩
